import Mathlib

/-!
Verification of the split-ordered lock-free hash table and its growable
segment array, as implemented in `src/homework/src/hash_table/`.

The development shallowly embeds the sequential (single-thread) semantics of
the Rust source:

* machine integers (`usize`, 64-bit) are modelled as `Nat`, with an explicit
  `% 2^64` at every operation whose overflow/wrap-around semantics matters;
* the external sorted lock-free list primitive (`cs431::lockfree::list`,
  an external collaborator of the core under scrutiny) is modelled from its
  specified interface: a cursor into a sorted list, `find` moving the cursor
  to the first node with key ≥ the search key, `insert` linking a node at the
  cursor, `delete` unlinking the node at the cursor;
* fallible or diverging operations return `Option` (`none` models a panic or
  an infinite retry/recursion that never produces a resulting state).
-/

/-- `revAux n x` is the reversal of the low `n` bits of `x`, as an `n`-bit
number: bit `i` of `x` (for `i < n`) becomes bit `n-1-i` of the result. -/
def revAux : Nat → Nat → Nat
  | 0, _ => 0
  | n+1, x => (x % 2) * 2^n + revAux n (x / 2)

/-- Model of Rust's `usize::reverse_bits` (64-bit word). -/
def reverse_bits (x : Nat) : Nat := revAux 64 x

/-- The shift amounts of the bit-smearing loop in
`SplitOrderedList::lookup_bucket` (lines 78–83): `size_usize` is
`std::mem::size_of::<usize>() = 8` (bytes), so `(0..8).rev()` yields
7, 6, 5, 4, 3, 2, 1, 0. -/
def smearShifts : List Nat := [7, 6, 5, 4, 3, 2, 1, 0]

/-- The parent-bucket mask computed by `SplitOrderedList::lookup_bucket`
(lines 77–88): smear the key's set bits downward, isolate (what the code
expects to be) the leftmost set bit via `x ^ (x >> 1)`, and subtract 1.
The source's `parent_mask -= 1` underflows when the smeared value is 0
(key 0); `Nat` subtraction yields 0 there, and in the map that case is
unreachable because bucket 0 is initialized at construction. -/
def parentMask (key : Nat) : Nat :=
  let x := smearShifts.foldl (fun acc sz => acc ||| (acc >>> sz)) key
  let y := x ^^^ (x >>> 1)
  y - 1

/-- The parent bucket index on which `lookup_bucket` recurses (line 90):
`key & parent_mask`. -/
def parentIndex (key : Nat) : Nat := key &&& parentMask key

example : parentIndex 1 = 0 := by decide
example : parentIndex 5 = 1 := by decide
example : parentIndex (2^28) = 0 := by decide

/-- C3. The claim states the parent-index computation in `lookup_bucket`
clears the most-significant set bit of the bucket index for every
representable index. The code's smearing loop shifts by 7+6+5+4+3+2+1 = 28
positions at most (it iterates over `size_of::<usize>() = 8` byte-count
values, not over powers of two), so the topmost bit propagates at most 28
places: for bucket index `2^29` the computed "parent" is `2^29` itself
instead of 0 (the index with its most-significant bit cleared), and the
recursion `lookup_bucket(b & parent_mask)` never makes progress. For small
indices (here 5 = 0b101) the computation does clear the top bit. -/
theorem claim_C3_parent_index_bug :
    parentIndex (2^29) = 2^29 ∧ parentIndex (2^29) ≠ 2^29 - 2^29 ∧ parentIndex 5 = 5 - 4 := by
  refine ⟨by decide, by decide, by decide⟩

theorem revAux_lt (n x : Nat) : revAux n x < 2^n := by
  induction n generalizing x with
  | zero => simp [revAux]
  | succ n ih =>
    have h := ih (x / 2)
    have h2 : x % 2 < 2 := Nat.mod_lt _ (by omega)
    have : (x % 2) * 2^n + revAux n (x / 2) < 2 * 2^n := by
      rcases Nat.mod_two_eq_zero_or_one x with h3 | h3 <;> simp [h3] <;> omega
    simpa [revAux, Nat.pow_succ, Nat.mul_comm] using this

theorem revAux_mod_pow (n x : Nat) : revAux n (x % 2^n) = revAux n x := by
  induction n generalizing x with
  | zero => simp [revAux]
  | succ n ih =>
    have h1 : x % 2^(n+1) % 2 = x % 2 := by
      rw [Nat.mod_mod_of_dvd]
      exact Dvd.intro_left (2^n) (by ring)
    have h2 : x % 2^(n+1) / 2 = x / 2 % 2^n := by
      rw [Nat.pow_succ, Nat.mul_comm, Nat.mod_mul_right_div_self]
    rw [revAux, revAux, h1, h2, ih]

theorem revAux_zero (n : Nat) : revAux n 0 = 0 := by
  induction n with
  | zero => rfl
  | succ n ih => simp [revAux, ih]

theorem revAux_split (m l x : Nat) :
    revAux (m + l) x = revAux m x * 2^l + revAux l (x / 2^m) := by
  induction m generalizing x with
  | zero => simp [revAux]
  | succ m ih =>
    have : m + 1 + l = (m + l) + 1 := by omega
    rw [this, revAux, ih (x / 2), revAux]
    have hd : x / 2 / 2^m = x / 2^(m+1) := by
      rw [Nat.div_div_eq_div_mul, Nat.pow_succ, Nat.mul_comm]
    rw [hd, Nat.pow_add]
    ring

theorem revAux_inj {n a b : Nat} (ha : a < 2^n) (hb : b < 2^n)
    (h : revAux n a = revAux n b) : a = b := by
  induction n generalizing a b with
  | zero =>
    simp [Nat.pow_zero, Nat.lt_one_iff] at ha hb
    omega
  | succ n ih =>
    rw [revAux, revAux] at h
    have hra := revAux_lt n (a / 2)
    have hrb := revAux_lt n (b / 2)
    have hmod : a % 2 = b % 2 := by
      rcases Nat.mod_two_eq_zero_or_one a with h1 | h1 <;>
        rcases Nat.mod_two_eq_zero_or_one b with h2 | h2 <;>
          simp [h1, h2] at h ⊢ <;> omega
    have hrev : revAux n (a / 2) = revAux n (b / 2) := by
      rw [hmod] at h; omega
    have hda : a / 2 < 2^n := by
      rw [Nat.pow_succ] at ha
      omega
    have hdb : b / 2 < 2^n := by
      rw [Nat.pow_succ] at hb
      omega
    have := ih hda hdb hrev
    omega

theorem revAux_succ_mod_two (n x : Nat) : revAux (n+1) x % 2 = x / 2^n % 2 := by
  induction n generalizing x with
  | zero => simp [revAux]
  | succ n ih =>
    rw [revAux]
    have h2 : ((x % 2) * 2^(n+1) + revAux (n+1) (x / 2)) % 2 = revAux (n+1) (x / 2) % 2 := by
      have : (x % 2) * 2^(n+1) % 2 = 0 := by
        rw [Nat.pow_succ, ← Nat.mul_assoc, Nat.mul_mod_left]
      omega
    rw [h2, ih]
    rw [Nat.div_div_eq_div_mul, Nat.pow_succ, Nat.mul_comm]

theorem revAux_le_of_sub_bits {n a b : Nat}
    (h : ∀ i, a.testBit i = true → b.testBit i = true) : revAux n a ≤ revAux n b := by
  induction n generalizing a b with
  | zero => simp [revAux]
  | succ n ih =>
    have hmod : a % 2 ≤ b % 2 := by
      by_cases h0 : a % 2 = 0
      · simp [h0]
      · have ha0 : a.testBit 0 = true := by
          simp [Nat.testBit_zero]
          omega
        have := h 0 ha0
        simp [Nat.testBit_zero] at this
        omega
    have hdiv : ∀ i, (a / 2).testBit i = true → (b / 2).testBit i = true := by
      intro i hi
      have h1 : a.testBit (i+1) = true := by rw [Nat.testBit_succ]; exact hi
      have := h (i+1) h1
      rw [Nat.testBit_succ] at this
      exact this
    have := ih hdiv
    rw [revAux, revAux]
    exact Nat.add_le_add (Nat.mul_le_mul_right _ hmod) this

theorem lor_one_of_even {x : Nat} (h : x % 2 = 0) : x ||| 1 = x + 1 := by
  apply Nat.eq_of_testBit_eq
  intro i
  cases i with
  | zero =>
    simp [Nat.testBit_lor, Nat.testBit_zero]
    omega
  | succ i =>
    rw [Nat.testBit_lor, Nat.testBit_succ, Nat.testBit_succ, Nat.testBit_succ]
    have h1 : (1 : Nat) / 2 = 0 := by norm_num
    have h2 : (x + 1) / 2 = x / 2 := by omega
    rw [h1, h2, Nat.zero_testBit, Bool.or_false]

theorem reverse_bits_lt (x : Nat) : reverse_bits x < 2^64 := revAux_lt 64 x

theorem reverse_bits_inj {a b : Nat} (ha : a < 2^64) (hb : b < 2^64)
    (h : reverse_bits a = reverse_bits b) : a = b := revAux_inj ha hb h

theorem reverse_bits_even {k : Nat} (h : k < 2^63) : reverse_bits k % 2 = 0 := by
  have h1 : reverse_bits k % 2 = k / 2^63 % 2 := revAux_succ_mod_two 63 k
  have h2 : k / 2^63 = 0 := Nat.div_eq_of_lt h
  rw [h1, h2]

theorem real_key_eq {k : Nat} (h : k < 2^63) : reverse_bits k ||| 1 = reverse_bits k + 1 :=
  lor_one_of_even (reverse_bits_even h)

theorem reverse_bits_and_le (k m : Nat) : reverse_bits (k &&& m) ≤ reverse_bits k := by
  apply revAux_le_of_sub_bits
  intro i hi
  rw [Nat.testBit_and] at hi
  exact (Bool.and_eq_true _ _ |>.mp hi).1

theorem reverse_bits_split (m : Nat) (hm : m ≤ 64) (k : Nat) :
    reverse_bits k = revAux m k * 2^(64 - m) + revAux (64 - m) (k / 2^m) := by
  have h64 : m + (64 - m) = 64 := by omega
  have hs := revAux_split m (64 - m) k
  rw [h64] at hs
  exact hs

theorem reverse_bits_mod_pow (m : Nat) (hm : m ≤ 64) (k : Nat) :
    reverse_bits (k % 2^m) = revAux m k * 2^(64 - m) := by
  rw [reverse_bits_split m hm (k % 2^m)]
  have hd : k % 2^m / 2^m = 0 := Nat.div_eq_of_lt (Nat.mod_lt _ (Nat.pos_pow_of_pos m (by omega)))
  rw [revAux_mod_pow, hd, revAux_zero]
  omega

theorem reverse_bits_mod_le (m : Nat) (hm : m ≤ 64) (k : Nat) :
    reverse_bits (k % 2^m) ≤ reverse_bits k := by
  rw [reverse_bits_mod_pow m hm, reverse_bits_split m hm k]
  omega

/-- The split-order gap property: the sentinel key of any bucket `b'` that
sorts after the sentinel of key `k`'s bucket is larger than `k`'s transformed
real key, provided `b'` is below the (power-of-two) bucket count `2^m`. -/
theorem sentinel_gap {m k b' : Nat} (hm : m ≤ 63) (hk : k < 2^63) (hb' : b' < 2^m)
    (hgt : reverse_bits (k % 2^m) < reverse_bits b') :
    (reverse_bits k ||| 1) < reverse_bits b' := by
  have hm64 : m ≤ 64 := by omega
  have hb'64 : b' < 2^63 := lt_of_lt_of_le hb' (Nat.pow_le_pow_right (by omega) hm)
  have hbmod : b' % 2^m = b' := Nat.mod_eq_of_lt hb'
  have h1 : reverse_bits b' = revAux m b' * 2^(64 - m) := by
    rw [← hbmod, reverse_bits_mod_pow m hm64, revAux_mod_pow]
  have h2 : reverse_bits (k % 2^m) = revAux m k * 2^(64 - m) := reverse_bits_mod_pow m hm64 k
  have h3 : reverse_bits k = revAux m k * 2^(64 - m) + revAux (64 - m) (k / 2^m) :=
    reverse_bits_split m hm64 k
  have hlt : revAux m k < revAux m b' := by
    rw [h1, h2] at hgt
    have hpos : 0 < 2^(64 - m) := Nat.pos_pow_of_pos _ (by omega)
    exact Nat.lt_of_mul_lt_mul_right hgt
  have hrem : revAux (64 - m) (k / 2^m) < 2^(64 - m) := revAux_lt _ _
  have hge : reverse_bits k + 1 ≤ reverse_bits b' := by
    rw [h1, h3]
    have : (revAux m k + 1) * 2^(64 - m) ≤ revAux m b' * 2^(64 - m) :=
      Nat.mul_le_mul_right _ hlt
    nlinarith
  have hodd : (reverse_bits k ||| 1) = reverse_bits k + 1 := real_key_eq hk
  have heven : reverse_bits b' % 2 = 0 := reverse_bits_even hb'64
  have hkeven : reverse_bits k % 2 = 0 := reverse_bits_even hk
  rw [hodd]
  rcases Nat.lt_or_ge (reverse_bits k + 1) (reverse_bits b') with h | h
  · exact h
  · exfalso
    have : reverse_bits b' = reverse_bits k + 1 := by omega
    omega

/-! ## Growable array (`growable_array.rs`) -/

def SEGMENT_LOGSIZE : Nat := 10

/-- A segment of `2^SEGMENT_LOGSIZE` slots, read either as child pointers or
as element pointers depending on the height at which it sits (the Rust
`union Segment<T>`); a null pointer is `none`. -/
inductive Segment (V : Type) : Type
  | leaf (elements : Nat → Option V)
  | inner (children : Nat → Option (Segment V))

/-- `Segment::new()`: a freshly zeroed block, interpreted according to the
level it is linked at (level 0 = element segment). -/
def freshSeg (V : Type) : Nat → Segment V
  | 0 => .leaf fun _ => none
  | _+1 => .inner fun _ => none

/-- The offset used at loop iteration `layer` of the locate phase
(line 266): `(index >> (SEGMENT_LOGSIZE * layer)) & ((1 << SEGMENT_LOGSIZE) - 1)`. -/
def digit (index layer : Nat) : Nat :=
  (index >>> (SEGMENT_LOGSIZE * layer)) &&& ((1 <<< SEGMENT_LOGSIZE) - 1)

/-- Pure read of the element slot addressed by `index` in a segment sitting at
level `layer`: descend one child per level; a null child reads as a null slot. -/
def readSeg {V : Type} : Nat → Segment V → Nat → Option V
  | 0, .leaf f, index => f (digit index 0)
  | 0, .inner _, _ => none
  | layer+1, .inner ch, index =>
    match ch (digit index (layer+1)) with
    | none => none
    | some c => readSeg layer c index
  | _+1, .leaf _, _ => none

/-- The allocation effect of the locate phase (lines 260-288): descending from
level `layer`, replace each null child on `index`'s path by a freshly zeroed
segment (the winning CAS of line 278). The element slot itself (level 0) is
returned by reference and not modified. -/
def ensureSeg {V : Type} : Nat → Segment V → Nat → Segment V
  | 0, seg, _ => seg
  | layer+1, .inner ch, index =>
    let d := digit index (layer+1)
    let child := (ch d).getD (freshSeg V layer)
    .inner fun n => if n = d then some (ensureSeg layer child index) else ch n
  | _+1, .leaf f, _ => .leaf f

/-- The locate phase's result: the level-0 (element) segment reached for
`index`, or `none` if the descent hits an element segment too early (never
happens on well-formed trees). The code's trailing
`panic!("possible overflow of layers")` corresponds to no case here: the
loop always returns at layer 0. -/
def locateSeg {V : Type} : Nat → Segment V → Nat → Option (Segment V)
  | 0, seg, _ => some seg
  | layer+1, .inner ch, index =>
    locateSeg layer ((ch (digit index (layer+1))).getD (freshSeg V layer)) index
  | _+1, .leaf _, _ => none

/-- `GrowableArray::get` followed by a `store` through the returned slot:
same descent as `ensureSeg`, additionally writing `v` into the element slot. -/
def writeSeg {V : Type} : Nat → Segment V → Nat → V → Segment V
  | 0, .leaf f, index, v => .leaf fun n => if n = digit index 0 then some v else f n
  | 0, .inner ch, _, _ => .inner ch
  | layer+1, .inner ch, index, v =>
    let d := digit index (layer+1)
    let child := (ch d).getD (freshSeg V layer)
    .inner fun n => if n = d then some (writeSeg layer child index v) else ch n
  | _+1, .leaf f, _, _ => .leaf f

/-- `GrowableArray<T>`: root pointer tagged with the current tree height. -/
structure GrowableArray (V : Type) where
  tag : Nat
  root : Segment V

/-- `GrowableArray::new()` (lines 214-219): a height-0 root. -/
def GrowableArray.new (V : Type) : GrowableArray V :=
  ⟨0, .leaf fun _ => none⟩

/-- One step of the grow phase (lines 247-258): a new root one level taller
whose slot 0 points at the old root. -/
def growOnce {V : Type} (s : GrowableArray V) : GrowableArray V :=
  ⟨s.tag + 1, .inner fun n => if n = 0 then some s.root else none⟩

/-- The whole grow phase, sequentially: every CAS succeeds, so the loop exits
with the root's tag raised to `height` (or left alone if already as tall). -/
def growTo {V : Type} (s : GrowableArray V) (height : Nat) : GrowableArray V :=
  growOnce^[height - s.tag] s

/-- The height computation of `GrowableArray::get` (lines 224-231), with the
mask wrapping at the 64-bit word size exactly as `usize` does; 7 fuel steps
always suffice because after 6 widenings the mask is `2^64 - 1`. -/
def heightForAux : Nat → Nat → Nat → Nat → Nat
  | 0, _, _, h => h
  | fuel+1, index, mask, h =>
    if index &&& mask = index then h
    else heightForAux fuel index ((mask <<< SEGMENT_LOGSIZE ||| mask) % 2^64) (h + 1)

def heightFor (index : Nat) : Nat :=
  heightForAux 7 index ((1 <<< SEGMENT_LOGSIZE) - 1) 0

/-- The panic guard of lines 235-241: `(size_of::<usize>() << 3) / SEGMENT_LOGSIZE`. -/
def heightPanicBound : Nat := (8 <<< 3) / SEGMENT_LOGSIZE

/-- `GrowableArray::get`: grow, then locate (allocating along the path). -/
def GrowableArray.get {V : Type} (s : GrowableArray V) (index : Nat) : GrowableArray V :=
  let t := growTo s (heightFor index)
  ⟨t.tag, ensureSeg t.tag t.root index⟩

/-- A load through the slot returned by `get`. -/
def GrowableArray.read {V : Type} (s : GrowableArray V) (index : Nat) : Option V :=
  let t := s.get index
  readSeg t.tag t.root index

/-- A store of `v` through the slot returned by `get`. -/
def GrowableArray.write {V : Type} (s : GrowableArray V) (index : Nat) (v : V) : GrowableArray V :=
  let t := growTo s (heightFor index)
  ⟨t.tag, writeSeg t.tag t.root index v⟩

/-- Well-formedness: a segment linked at level `h` is an element segment iff
`h = 0`, and its children are well-formed at level `h - 1`. -/
inductive WfSeg {V : Type} : Nat → Segment V → Prop
  | leaf (f : Nat → Option V) : WfSeg 0 (.leaf f)
  | inner (h : Nat) (ch : Nat → Option (Segment V))
      (hch : ∀ n c, ch n = some c → WfSeg h c) : WfSeg (h+1) (.inner ch)

def Wf {V : Type} (s : GrowableArray V) : Prop := WfSeg s.tag s.root

theorem heightFor_eq (i : Nat) :
    heightFor i =
      if i &&& (2^10 - 1) = i then 0
      else if i &&& (2^20 - 1) = i then 1
      else if i &&& (2^30 - 1) = i then 2
      else if i &&& (2^40 - 1) = i then 3
      else if i &&& (2^50 - 1) = i then 4
      else if i &&& (2^60 - 1) = i then 5
      else if i &&& (2^64 - 1) = i then 6
      else 7 := by
  have h0 : (1 <<< SEGMENT_LOGSIZE) - 1 = 2^10 - 1 := by decide
  have h1 : ((2^10 - 1) <<< SEGMENT_LOGSIZE ||| (2^10 - 1)) % 2^64 = 2^20 - 1 := by decide
  have h2 : ((2^20 - 1) <<< SEGMENT_LOGSIZE ||| (2^20 - 1)) % 2^64 = 2^30 - 1 := by decide
  have h3 : ((2^30 - 1) <<< SEGMENT_LOGSIZE ||| (2^30 - 1)) % 2^64 = 2^40 - 1 := by decide
  have h4 : ((2^40 - 1) <<< SEGMENT_LOGSIZE ||| (2^40 - 1)) % 2^64 = 2^50 - 1 := by decide
  have h5 : ((2^50 - 1) <<< SEGMENT_LOGSIZE ||| (2^50 - 1)) % 2^64 = 2^60 - 1 := by decide
  have h6 : ((2^60 - 1) <<< SEGMENT_LOGSIZE ||| (2^60 - 1)) % 2^64 = 2^64 - 1 := by decide
  simp only [heightFor, heightForAux, h0, h1, h2, h3, h4, h5, h6]

theorem and_pow_sub_one_iff (i m : Nat) : i &&& (2^m - 1) = i ↔ i < 2^m := by
  rw [Nat.and_pow_two_sub_one_eq_mod]
  constructor
  · intro he
    rw [← he]
    exact Nat.mod_lt _ (Nat.pos_pow_of_pos _ (by omega))
  · exact Nat.mod_eq_of_lt

theorem heightFor_spec {i : Nat} (h : i < 2^64) :
    heightFor i ≤ 6 ∧ i < 2^(10 * (heightFor i + 1)) := by
  rw [heightFor_eq]
  split_ifs with c0 c1 c2 c3 c4 c5 c6
  · exact ⟨by norm_num, by simpa using (and_pow_sub_one_iff i 10).mp c0⟩
  · exact ⟨by norm_num, by simpa using (and_pow_sub_one_iff i 20).mp c1⟩
  · exact ⟨by norm_num, by simpa using (and_pow_sub_one_iff i 30).mp c2⟩
  · exact ⟨by norm_num, by simpa using (and_pow_sub_one_iff i 40).mp c3⟩
  · exact ⟨by norm_num, by simpa using (and_pow_sub_one_iff i 50).mp c4⟩
  · exact ⟨by norm_num, by simpa using (and_pow_sub_one_iff i 60).mp c5⟩
  · exact ⟨by norm_num, lt_of_lt_of_le h (by norm_num)⟩
  · exact absurd ((and_pow_sub_one_iff i 64).mpr h) c6

theorem digit_eq (index layer : Nat) : digit index layer = index / 2^(10 * layer) % 2^10 := by
  have hm : (1 <<< SEGMENT_LOGSIZE) - 1 = 2^10 - 1 := by decide
  have hs : SEGMENT_LOGSIZE = 10 := rfl
  rw [digit, hm, Nat.and_pow_two_sub_one_eq_mod, Nat.shiftRight_eq_div_pow, hs]

theorem digit_succ (index layer : Nat) : digit index (layer+1) = digit (index / 2^10) layer := by
  rw [digit_eq, digit_eq, Nat.div_div_eq_div_mul, ← Nat.pow_add]
  have : 10 + 10 * layer = 10 * (layer + 1) := by ring
  rw [this]

theorem digit_zero_self {index : Nat} (h : index < 2^10) : digit index 0 = index := by
  have hd : index / 2^(10*0) = index := by norm_num
  rw [digit_eq, hd, Nat.mod_eq_of_lt h]

theorem digit_high_zero {index layer : Nat} (h : index < 2^(10 * layer)) : digit index layer = 0 := by
  rw [digit_eq, Nat.div_eq_of_lt h]
  rfl

theorem digits_inj {layer i j : Nat} (hi : i < 2^(10 * (layer+1))) (hj : j < 2^(10 * (layer+1)))
    (h : ∀ l, l ≤ layer → digit i l = digit j l) : i = j := by
  induction layer generalizing i j with
  | zero =>
    have h0 := h 0 (by omega)
    rw [digit_eq, digit_eq] at h0
    simp at h0
    rw [Nat.mod_eq_of_lt (by simpa using hi), Nat.mod_eq_of_lt (by simpa using hj)] at h0
    exact h0
  | succ layer ih =>
    have hdi : i / 2^10 < 2^(10 * (layer+1)) := by
      apply Nat.div_lt_of_lt_mul
      calc i < 2^(10 * (layer+2)) := hi
        _ = 2^10 * 2^(10 * (layer+1)) := by rw [← Nat.pow_add]; ring_nf
    have hdj : j / 2^10 < 2^(10 * (layer+1)) := by
      apply Nat.div_lt_of_lt_mul
      calc j < 2^(10 * (layer+2)) := hj
        _ = 2^10 * 2^(10 * (layer+1)) := by rw [← Nat.pow_add]; ring_nf
    have hrec : i / 2^10 = j / 2^10 := by
      apply ih hdi hdj
      intro l hl
      rw [← digit_succ, ← digit_succ]
      exact h (l+1) (by omega)
    have h0 := h 0 (by omega)
    rw [digit_eq, digit_eq] at h0
    simp at h0
    omega

theorem wfSeg_fresh (V : Type) (h : Nat) : WfSeg h (freshSeg V h) := by
  cases h with
  | zero => exact WfSeg.leaf _
  | succ h =>
    refine WfSeg.inner h _ ?_
    intro n c hc
    simp at hc

theorem readSeg_fresh {V : Type} (layer i : Nat) : readSeg layer (freshSeg V layer) i = none := by
  cases layer with
  | zero => simp [readSeg, freshSeg]
  | succ layer => simp [readSeg, freshSeg]

theorem readSeg_ensure {V : Type} (layer : Nat) (seg : Segment V) (i2 i : Nat) :
    readSeg layer (ensureSeg layer seg i2) i = readSeg layer seg i := by
  induction layer generalizing seg with
  | zero => rfl
  | succ layer ih =>
    cases seg with
    | leaf f => rfl
    | inner ch =>
      simp only [ensureSeg, readSeg]
      by_cases hd : digit i (layer+1) = digit i2 (layer+1)
      · rw [if_pos hd, hd]
        cases hch : ch (digit i2 (layer+1)) with
        | some c => simp [hch, ih]
        | none => simp [hch, ih, readSeg_fresh]
      · rw [if_neg hd]

theorem readSeg_write_self {V : Type} {layer : Nat} {seg : Segment V}
    (hw : WfSeg layer seg) (i : Nat) (v : V) :
    readSeg layer (writeSeg layer seg i v) i = some v := by
  induction layer generalizing seg with
  | zero =>
    cases hw with
    | leaf f => simp [writeSeg, readSeg]
  | succ layer ih =>
    cases hw with
    | inner h ch hch =>
      simp only [writeSeg, readSeg, if_pos rfl]
      cases hc : ch (digit i (layer+1)) with
      | some c => simp [hc, ih (hch _ _ hc)]
      | none => simp [hc, ih (wfSeg_fresh V layer)]

theorem readSeg_write_other {V : Type} (layer : Nat) (seg : Segment V) (i j : Nat) (v : V)
    (hdiff : ∃ l, l ≤ layer ∧ digit i l ≠ digit j l) :
    readSeg layer (writeSeg layer seg j v) i = readSeg layer seg i := by
  induction layer generalizing seg with
  | zero =>
    obtain ⟨l, hl, hne⟩ := hdiff
    have hl0 : l = 0 := by omega
    subst hl0
    cases seg with
    | leaf f => simp [writeSeg, readSeg, hne]
    | inner ch => rfl
  | succ layer ih =>
    cases seg with
    | leaf f => rfl
    | inner ch =>
      simp only [writeSeg, readSeg]
      by_cases hd : digit i (layer+1) = digit j (layer+1)
      · have hdiff2 : ∃ l, l ≤ layer ∧ digit i l ≠ digit j l := by
          obtain ⟨l, hl, hne⟩ := hdiff
          refine ⟨l, ?_, hne⟩
          rcases Nat.lt_or_ge l (layer+1) with h1 | h1
          · omega
          · exfalso
            have : l = layer + 1 := by omega
            subst this
            exact hne hd
        rw [if_pos hd, hd]
        cases hch : ch (digit j (layer+1)) with
        | some c => simp [hch, ih _ hdiff2]
        | none => simp [hch, ih _ hdiff2, readSeg_fresh]
      · rw [if_neg hd]

theorem wfSeg_ensure {V : Type} {layer : Nat} {seg : Segment V}
    (hw : WfSeg layer seg) (i : Nat) : WfSeg layer (ensureSeg layer seg i) := by
  induction layer generalizing seg with
  | zero => exact hw
  | succ layer ih =>
    cases hw with
    | inner h ch hch =>
      simp only [ensureSeg]
      refine WfSeg.inner _ _ ?_
      intro n c hc
      by_cases hn : n = digit i (layer+1)
      · rw [if_pos hn] at hc
        cases hc
        cases hch2 : ch (digit i (layer+1)) with
        | some c2 => simpa [hch2] using ih (hch _ _ hch2)
        | none => simpa [hch2] using ih (wfSeg_fresh V layer)
      · rw [if_neg hn] at hc
        exact hch _ _ hc

theorem wfSeg_write {V : Type} {layer : Nat} {seg : Segment V}
    (hw : WfSeg layer seg) (i : Nat) (v : V) : WfSeg layer (writeSeg layer seg i v) := by
  induction layer generalizing seg with
  | zero =>
    cases hw with
    | leaf f => exact WfSeg.leaf _
  | succ layer ih =>
    cases hw with
    | inner h ch hch =>
      simp only [writeSeg]
      refine WfSeg.inner _ _ ?_
      intro n c hc
      by_cases hn : n = digit i (layer+1)
      · rw [if_pos hn] at hc
        cases hc
        cases hch2 : ch (digit i (layer+1)) with
        | some c2 => simpa [hch2] using ih (hch _ _ hch2)
        | none => simpa [hch2] using ih (wfSeg_fresh V layer)
      · rw [if_neg hn] at hc
        exact hch _ _ hc

theorem iterate_growOnce_tag {V : Type} (n : Nat) (s : GrowableArray V) :
    (growOnce^[n] s).tag = s.tag + n := by
  induction n generalizing s with
  | zero => rfl
  | succ n ih =>
    rw [Function.iterate_succ_apply, ih]
    simp [growOnce]
    omega

theorem growTo_tag {V : Type} (s : GrowableArray V) (h : Nat) :
    (growTo s h).tag = max s.tag h := by
  rw [growTo, iterate_growOnce_tag]
  omega

theorem growTo_of_le {V : Type} (s : GrowableArray V) (h : Nat) (hle : h ≤ s.tag) :
    growTo s h = s := by
  rw [growTo, Nat.sub_eq_zero_of_le hle]
  rfl

theorem wf_growOnce {V : Type} {s : GrowableArray V} (hw : Wf s) : Wf (growOnce s) := by
  refine WfSeg.inner _ _ ?_
  intro n c hc
  by_cases hn : n = 0
  · rw [if_pos hn] at hc
    cases hc
    exact hw
  · rw [if_neg hn] at hc
    cases hc

theorem wf_growTo {V : Type} {s : GrowableArray V} (hw : Wf s) (h : Nat) : Wf (growTo s h) := by
  rw [growTo]
  generalize h - s.tag = n
  induction n generalizing s with
  | zero => exact hw
  | succ n ih =>
    rw [Function.iterate_succ_apply]
    exact ih (wf_growOnce hw)

/-- The value observable at index `i`, as determined by the tree alone:
reading any index beyond the tree's current span yields an empty slot. -/
def absRead {V : Type} (s : GrowableArray V) (i : Nat) : Option V :=
  if i < 2^(10 * (s.tag + 1)) then readSeg s.tag s.root i else none

theorem absRead_growOnce {V : Type} (s : GrowableArray V) (i : Nat) :
    absRead (growOnce s) i = absRead s i := by
  unfold absRead growOnce
  simp only
  rcases Nat.lt_or_ge i (2^(10 * (s.tag + 1))) with h1 | h1
  · have h2 : i < 2^(10 * (s.tag + 1 + 1)) :=
      lt_of_lt_of_le h1 (Nat.pow_le_pow_right (by omega) (by omega))
    rw [if_pos h2, if_pos h1]
    have hd : digit i (s.tag + 1) = 0 := digit_high_zero h1
    simp [readSeg, hd]
  · rw [if_neg (show ¬ i < 2^(10 * (s.tag + 1)) by omega)]
    rcases Nat.lt_or_ge i (2^(10 * (s.tag + 1 + 1))) with h2 | h2
    · rw [if_pos h2]
      have hd : digit i (s.tag + 1) ≠ 0 := by
        rw [digit_eq]
        have hdiv1 : 1 ≤ i / 2^(10 * (s.tag + 1)) := by
          exact Nat.one_le_div_iff (Nat.pos_pow_of_pos _ (by omega)) |>.mpr h1
        have hdiv2 : i / 2^(10 * (s.tag + 1)) < 2^10 := by
          apply Nat.div_lt_of_lt_mul
          calc i < 2^(10 * (s.tag + 1 + 1)) := h2
            _ = 2^(10 * (s.tag + 1)) * 2^10 := by rw [← Nat.pow_add]; ring_nf
        rw [Nat.mod_eq_of_lt hdiv2]
        omega
      simp [readSeg, hd]
    · rw [if_neg (show ¬ i < 2^(10 * (s.tag + 1 + 1)) by omega)]

theorem absRead_growTo {V : Type} (s : GrowableArray V) (h i : Nat) :
    absRead (growTo s h) i = absRead s i := by
  rw [growTo]
  generalize h - s.tag = n
  induction n generalizing s with
  | zero => rfl
  | succ n ih =>
    rw [Function.iterate_succ_apply, ih, absRead_growOnce]

theorem read_eq_absRead {V : Type} (s : GrowableArray V) (i : Nat) (hi : i < 2^64) :
    s.read i = absRead s i := by
  have hspec := (heightFor_spec hi).2
  have htag : (growTo s (heightFor i)).tag = max s.tag (heightFor i) := growTo_tag s _
  have hcond : i < 2^(10 * ((growTo s (heightFor i)).tag + 1)) := by
    refine lt_of_lt_of_le hspec (Nat.pow_le_pow_right (by omega) ?_)
    rw [htag]
    omega
  calc s.read i = readSeg (growTo s (heightFor i)).tag (growTo s (heightFor i)).root i := by
        simp only [GrowableArray.read, GrowableArray.get]
        exact readSeg_ensure _ _ _ _
    _ = absRead (growTo s (heightFor i)) i := by rw [absRead, if_pos hcond]
    _ = absRead s i := absRead_growTo s _ i

theorem absRead_write_self {V : Type} (s : GrowableArray V) (i : Nat) (v : V)
    (hw : Wf s) (hi : i < 2^64) : absRead (s.write i v) i = some v := by
  have hspec := (heightFor_spec hi).2
  have htag : (growTo s (heightFor i)).tag = max s.tag (heightFor i) := growTo_tag s _
  have hcond : i < 2^(10 * ((growTo s (heightFor i)).tag + 1)) := by
    refine lt_of_lt_of_le hspec (Nat.pow_le_pow_right (by omega) ?_)
    rw [htag]
    omega
  simp only [GrowableArray.write, absRead]
  rw [if_pos hcond]
  exact readSeg_write_self (wf_growTo hw _) i v

theorem absRead_write_other {V : Type} (s : GrowableArray V) (i j : Nat) (v : V)
    (hne : i ≠ j) (hj : j < 2^64) :
    absRead (s.write j v) i = absRead s i := by
  have hspecj := (heightFor_spec hj).2
  have htag : (growTo s (heightFor j)).tag = max s.tag (heightFor j) := growTo_tag s _
  have hjb : j < 2^(10 * ((growTo s (heightFor j)).tag + 1)) := by
    refine lt_of_lt_of_le hspecj (Nat.pow_le_pow_right (by omega) ?_)
    rw [htag]
    omega
  rw [← absRead_growTo s (heightFor j) i]
  simp only [GrowableArray.write, absRead]
  rcases Nat.lt_or_ge i (2^(10 * ((growTo s (heightFor j)).tag + 1))) with hc | hc
  · rw [if_pos hc, if_pos hc]
    apply readSeg_write_other
    by_contra hall
    push_neg at hall
    exact hne (digits_inj hc hjb hall)
  · rw [if_neg (by omega), if_neg (by omega)]

theorem absRead_get {V : Type} (s : GrowableArray V) (j i : Nat) :
    absRead (s.get j) i = absRead s i := by
  rw [← absRead_growTo s (heightFor j) i]
  simp only [GrowableArray.get, absRead]
  rcases Nat.lt_or_ge i (2^(10 * ((growTo s (heightFor j)).tag + 1))) with hc | hc
  · rw [if_pos hc, if_pos hc, readSeg_ensure]
  · rw [if_neg (by omega), if_neg (by omega)]

theorem wf_get {V : Type} {s : GrowableArray V} (hw : Wf s) (j : Nat) : Wf (s.get j) :=
  wfSeg_ensure (wf_growTo hw _) j

theorem wf_write {V : Type} {s : GrowableArray V} (hw : Wf s) (j : Nat) (v : V) :
    Wf (s.write j v) :=
  wfSeg_write (wf_growTo hw _) j v

theorem locateSeg_isSome {V : Type} {t : Nat} {seg : Segment V} (hw : WfSeg t seg) (i : Nat) :
    (locateSeg t seg i).isSome = true := by
  induction t generalizing seg with
  | zero => rfl
  | succ t ih =>
    cases hw with
    | inner h ch hch =>
      simp only [locateSeg]
      cases hc : ch (digit i (t+1)) with
      | some c => simpa [hc] using ih (hch _ _ hc)
      | none => simpa [hc] using ih (wfSeg_fresh V t)

/-- C9. `GrowableArray::get(index)` never fails, for every index representable
in a 64-bit machine word: the computed height never exceeds
`wordBits / SEGMENT_LOGSIZE = 6` (so the "Index overflow" panic at line 236
is unreachable), and after the grow phase the top-down locate loop always
returns an element slot at layer 0 (so the trailing
"possible overflow of layers" panic at line 290 is unreachable). -/
theorem claim_C9_get_never_fails (i : Nat) (hi : i < 2^64) :
    (heightFor i ≤ heightPanicBound ∧ ¬ heightFor i > heightPanicBound) ∧
    ∀ (V : Type) (s : GrowableArray V), Wf s →
      (locateSeg (growTo s (heightFor i)).tag (growTo s (heightFor i)).root i).isSome = true := by
  have hb : heightPanicBound = 6 := by decide
  refine ⟨⟨?_, ?_⟩, ?_⟩
  · rw [hb]
    exact (heightFor_spec hi).1
  · rw [hb]
    have := (heightFor_spec hi).1
    omega
  · intro V s hw
    exact locateSeg_isSome (wf_growTo hw _) i

theorem claim_C9_witness :
    (2^64 - 1 < 2^64) ∧
    (heightFor (2^64 - 1) ≤ heightPanicBound ∧ ¬ heightFor (2^64 - 1) > heightPanicBound) ∧
    (locateSeg (growTo (GrowableArray.new Nat) (heightFor (2^64 - 1))).tag
      (growTo (GrowableArray.new Nat) (heightFor (2^64 - 1))).root (2^64 - 1)).isSome = true :=
  ⟨by norm_num,
   (claim_C9_get_never_fails (2^64 - 1) (by norm_num)).1,
   (claim_C9_get_never_fails (2^64 - 1) (by norm_num)).2 Nat (GrowableArray.new Nat)
     (WfSeg.leaf _)⟩

/-- C10. The growable array behaves as an unbounded array of stable slots:
a value stored through the slot for index `i` is read back through `i`; the
slot for `j ≠ i` is a distinct slot (storing through it leaves `i`'s reading
untouched); and any later sequence of `get` calls — including ones whose
indices force the tree height to grow, re-parenting the old root under
slot 0 of each new root — leaves the value observable at `i` unchanged. -/
theorem claim_C10_stable_slots {V : Type} (s : GrowableArray V) (i j : Nat) (v : V)
    (js : List Nat) (hw : Wf s) (hi : i < 2^64) (hj : j < 2^64) :
    ((s.write i v).read i = some v) ∧
    (i ≠ j → (s.write j v).read i = s.read i) ∧
    ((js.foldl GrowableArray.get s).read i = s.read i) := by
  refine ⟨?_, ?_, ?_⟩
  · rw [read_eq_absRead _ _ hi]
    exact absRead_write_self s i v hw hi
  · intro hne
    rw [read_eq_absRead _ _ hi, read_eq_absRead _ _ hi]
    exact absRead_write_other s i j v hne hj
  · induction js generalizing s with
    | nil => rfl
    | cons j0 js ih =>
      rw [List.foldl_cons, ih (s.get j0) (wf_get hw j0)]
      rw [read_eq_absRead _ _ hi, read_eq_absRead _ _ hi]
      exact absRead_get s j0 i

theorem claim_C10_witness :
    Wf (GrowableArray.new Nat) ∧ (0 : Nat) < 2^64 ∧ (1 : Nat) < 2^64 ∧ (0 : Nat) ≠ 1 ∧
    (((GrowableArray.new Nat).write 0 42).read 0 = some 42) ∧
    (((GrowableArray.new Nat).write 1 42).read 0 = (GrowableArray.new Nat).read 0) ∧
    (([2^35, 3].foldl GrowableArray.get (GrowableArray.new Nat)).read 0 =
      (GrowableArray.new Nat).read 0) :=
  ⟨WfSeg.leaf _, by norm_num, by norm_num, by norm_num,
   (claim_C10_stable_slots (GrowableArray.new Nat) 0 1 42 [2^35, 3] (WfSeg.leaf _)
     (by norm_num) (by norm_num)).1,
   (claim_C10_stable_slots (GrowableArray.new Nat) 0 1 42 [2^35, 3] (WfSeg.leaf _)
     (by norm_num) (by norm_num)).2.1 (by norm_num),
   (claim_C10_stable_slots (GrowableArray.new Nat) 0 1 42 [2^35, 3] (WfSeg.leaf _)
     (by norm_num) (by norm_num)).2.2⟩

/-! ## Split-ordered list (`split_ordered_list.rs`)

The shared sorted list (the external `cs431::lockfree::list` primitive) is
modelled from its specified interface as a sorted association list
`List (Nat × Option V)`; a node's payload is `none` for the sentinel (bucket
head) nodes created from `MaybeUninit::uninit()`, `some v` for real entries.
A cursor obtained from the bucket array and moved by the primitive's
ordered find is identified, sequentially, by the key it is parked at: the
nodes at and after the first node with key ≥ that key. A Segmented-Index
slot is modelled by whether it has been written (a written slot always holds
the pointer to the sentinel node whose key is the bit-reversal of the slot's
index, which is the only value ever stored into it). -/

/-- Model of `SplitOrderedList<V>` (lines 18-29). -/
structure SplitOrderedList (V : Type) where
  list : List (Nat × Option V)
  buckets : Nat → Bool
  size : Nat
  count : Nat

/-- `usize` wrapping decrement, for the `size - 1` mask computations. -/
def wrapping_sub_one (n : Nat) : Nat := (n + (2^64 - 1)) % 2^64

/-- `SplitOrderedList::LOAD_FACTOR` (line 39). -/
def LOAD_FACTOR : Nat := 2

/-- Bit length of the low `fuel` bits of `n` (the position of the highest set
bit, plus one); 64 units of fuel cover a 64-bit word. -/
def bitLen : Nat → Nat → Nat
  | 0, _ => 0
  | fuel+1, n => if n = 0 then 0 else bitLen fuel (n / 2) + 1

/-- Rust's `usize::leading_zeros` for a 64-bit word. -/
def leading_zeros (key : Nat) : Nat := 64 - bitLen 64 key

/-- `SplitOrderedList::assert_valid_key` (lines 134-136): `true` iff the
assertion `key.leading_zeros() != 0` passes. -/
def assert_valid_key (key : Nat) : Bool := leading_zeros key != 0

/-- Resolution of `find_harris_michael`'s found flag at a cursor: whether the
first node at or after the cursor with key ≥ the search key is an exact
match. -/
def foundAt {V : Type} (rest : List (Nat × Option V)) (k : Nat) : Bool :=
  match rest with
  | [] => false
  | p :: _ => p.1 == k

/-- The external primitive's `insert` at a cursor that was parked at key `sk`
and then advanced by `find` to the position of key `k`: the new node is
linked between the last node with key < `k` (at or after the cursor) and the
rest. -/
def insertAt {V : Type} (l : List (Nat × Option V)) (sk k : Nat) (v : Option V) :
    List (Nat × Option V) :=
  l.takeWhile (fun p => p.1 < sk) ++
    ((l.dropWhile (fun p => p.1 < sk)).takeWhile (fun p => p.1 < k) ++
      (k, v) :: (l.dropWhile (fun p => p.1 < sk)).dropWhile (fun p => p.1 < k))

/-- The external primitive's `delete` of the node under the cursor (used only
once `find` reported an exact match, so the node unlinked is the first one
with key ≥ `k`). -/
def deleteAt {V : Type} (l : List (Nat × Option V)) (sk k : Nat) :
    List (Nat × Option V) :=
  l.takeWhile (fun p => p.1 < sk) ++
    ((l.dropWhile (fun p => p.1 < sk)).takeWhile (fun p => p.1 < k) ++
      ((l.dropWhile (fun p => p.1 < sk)).dropWhile (fun p => p.1 < k)).tail)

/-- `SplitOrderedList::new` (lines 42-59): one sentinel node with key 0
pre-linked at the list head, its pointer stored in bucket slot 0, `size = 2`,
`count = 0`. -/
def SplitOrderedList.new (V : Type) : SplitOrderedList V :=
  { list := [(0, none)], buckets := fun b => b == 0, size := 2, count := 0 }

/-- `SplitOrderedList::lookup_bucket` (lines 63-112), sequentially, with a
recursion-depth fuel: `none` models the infinite recursion that the real code
performs when the parent computation makes no progress (the real call never
returns then, so no resulting state exists). 64 units of fuel are enough for
any chain of parent indices that makes progress, because each recursion step
removes at least one set bit from a 64-bit index. Returns the updated state
and the key of the sentinel the returned cursor is parked at. -/
def lookup_bucket {V : Type} : Nat → SplitOrderedList V → Nat →
    Option (SplitOrderedList V × Nat)
  | 0, _, _ => none
  | fuel+1, s, key =>
    let index := key &&& (2^63 - 1)
    if s.buckets index then some (s, reverse_bits index)
    else
      match lookup_bucket fuel s (key &&& parentMask key) with
      | none => none
      | some (s1, psk) =>
        let sk := reverse_bits index
        let rest := (s1.list.dropWhile (fun p => p.1 < psk)).dropWhile (fun p => p.1 < sk)
        if foundAt rest sk then
          some ({ s1 with buckets := fun b => b == index || s1.buckets b }, sk)
        else
          some ({ s1 with
                    list := insertAt s1.list psk sk none,
                    buckets := fun b => b == index || s1.buckets b }, sk)

/-- `SplitOrderedList::find` (lines 115-132): read `size`, locate the bucket
for `key & (size - 1)`, then move a clone of the bucket cursor to the
position of the transformed key. Returns the updated state, the found flag,
and the nodes from the cursor's final position on. -/
def SplitOrderedList.find {V : Type} (s : SplitOrderedList V) (key : Nat) :
    Option (SplitOrderedList V × Bool × List (Nat × Option V)) :=
  let size := s.size
  match lookup_bucket 64 s (key &&& wrapping_sub_one size) with
  | none => none
  | some (s1, sk) =>
    let key2 := reverse_bits key ||| 1
    let rest := (s1.list.dropWhile (fun p => p.1 < sk)).dropWhile (fun p => p.1 < key2)
    some (s1, foundAt rest key2, rest)

/-- `SplitOrderedList::lookup` (lines 140-159). `none` models a panic (the
key-validity assertion) or divergence; reading the payload of a node found
under the real key is `assume_init`, which is only ever reached for real
(initialized) nodes. -/
def SplitOrderedList.lookup {V : Type} (s : SplitOrderedList V) (key : Nat) :
    Option (SplitOrderedList V × Option V) :=
  if !(assert_valid_key key) then none
  else
    match s.find key with
    | none => none
    | some (s1, r, rest) =>
      if r then
        match rest with
        | [] => none
        | p :: _ => some (s1, p.2)
      else some (s1, none)

/-- `SplitOrderedList::insert` (lines 161-198): locate the bucket, search for
the transformed key; if present hand the value back unconsumed, otherwise
link a new node at the cursor, increment `count` (`fetch_add` returns the old
value), and if `count + 1 > size * LOAD_FACTOR` attempt one non-retried CAS
doubling `size` (sequentially the CAS succeeds iff `size` still holds the
value read at the start). All `usize` arithmetic wraps at `2^64`. -/
def SplitOrderedList.insert {V : Type} (s : SplitOrderedList V) (key : Nat) (value : V) :
    Option (SplitOrderedList V × Except V Unit) :=
  if !(assert_valid_key key) then none
  else
    let size := s.size
    match lookup_bucket 64 s (key &&& wrapping_sub_one size) with
    | none => none
    | some (s1, sk) =>
      let key2 := reverse_bits key ||| 1
      let rest := (s1.list.dropWhile (fun p => p.1 < sk)).dropWhile (fun p => p.1 < key2)
      if foundAt rest key2 then some (s1, Except.error value)
      else
        let s2 : SplitOrderedList V :=
          { s1 with
              list := insertAt s1.list sk key2 (some value),
              count := (s1.count + 1) % 2^64 }
        let s3 : SplitOrderedList V :=
          if (s1.count + 1) % 2^64 > (size * LOAD_FACTOR) % 2^64 then
            (if s2.size = size then { s2 with size := (size * 2) % 2^64 } else s2)
          else s2
        some (s3, Except.ok ())

/-- `SplitOrderedList::delete` (lines 200-223). The payload of the unlinked
node is `assume_init`-ed, which is undefined for a sentinel (modelled
`none`); that case is unreachable because the search key is odd and sentinel
keys are even. -/
def SplitOrderedList.delete {V : Type} (s : SplitOrderedList V) (key : Nat) :
    Option (SplitOrderedList V × Except Unit V) :=
  if !(assert_valid_key key) then none
  else
    let size := s.size
    match lookup_bucket 64 s (key &&& wrapping_sub_one size) with
    | none => none
    | some (s1, sk) =>
      let key2 := reverse_bits key ||| 1
      let rest := (s1.list.dropWhile (fun p => p.1 < sk)).dropWhile (fun p => p.1 < key2)
      match rest with
      | [] => some (s1, Except.error ())
      | p :: _ =>
        if p.1 == key2 then
          match p.2 with
          | some v =>
            some ({ s1 with
                      list := deleteAt s1.list sk key2,
                      count := (s1.count + (2^64 - 1)) % 2^64 }, Except.ok v)
          | none => none
        else some (s1, Except.error ())

/-- States reachable from a fresh map by completed map operations. -/
inductive Reach {V : Type} : SplitOrderedList V → Prop
  | init : Reach (SplitOrderedList.new V)
  | lkp {s s1 : SplitOrderedList V} {key : Nat} {r : Option V} :
      Reach s → SplitOrderedList.lookup s key = some (s1, r) → Reach s1
  | ins {s s1 : SplitOrderedList V} {key : Nat} {value : V} {r : Except V Unit} :
      Reach s → SplitOrderedList.insert s key value = some (s1, r) → Reach s1
  | del {s s1 : SplitOrderedList V} {key : Nat} {r : Except Unit V} :
      Reach s → SplitOrderedList.delete s key = some (s1, r) → Reach s1

/-- The sequential state invariant of the split-ordered list. -/
structure SOLInv {V : Type} (s : SplitOrderedList V) : Prop where
  sorted : s.list.Pairwise (fun p q => p.1 < q.1)
  sent_shape : ∀ p ∈ s.list, p.2 = (none : Option V) → ∃ b, b < s.size ∧ p.1 = reverse_bits b
  real_shape : ∀ p ∈ s.list, p.2 ≠ (none : Option V) → ∃ k, k < 2^63 ∧ p.1 = reverse_bits k ||| 1
  bkt0 : s.buckets 0 = true
  bkt_lt : ∀ b, s.buckets b = true → b < s.size
  bkt_sent : ∀ b, s.buckets b = true → (reverse_bits b, (none : Option V)) ∈ s.list
  size_pow : ∃ m, 1 ≤ m ∧ m ≤ 62 ∧ s.size = 2^m
  count_eq : s.count = (s.list.filter (fun p => p.2.isSome)).length

theorem mem_takeWhile_lt {V : Type} {l : List (Nat × Option V)} {k : Nat}
    {q : Nat × Option V} (h : q ∈ l.takeWhile (fun p => p.1 < k)) : q.1 < k := by
  simpa using List.mem_takeWhile_imp h

theorem mem_dropWhile_ge {V : Type} {l : List (Nat × Option V)} {k : Nat}
    (hs : l.Pairwise (fun p q => p.1 < q.1)) :
    ∀ q ∈ l.dropWhile (fun p => p.1 < k), k ≤ q.1 := by
  induction l with
  | nil => intro q hq; simp [List.dropWhile] at hq
  | cons a l ih =>
    intro q hq
    rw [List.dropWhile_cons] at hq
    simp only [decide_eq_true_eq] at hq
    by_cases ha : a.1 < k
    · rw [if_pos ha] at hq
      exact ih (List.Pairwise.sublist (List.sublist_cons_self a l) hs) q hq
    · rw [if_neg ha] at hq
      rcases List.mem_cons.mp hq with h1 | h1
      · subst h1; omega
      · have := (List.pairwise_cons.mp hs).1 q h1
        omega

theorem mem_dropWhile_of_ge {V : Type} {l : List (Nat × Option V)} {k : Nat}
    {q : Nat × Option V} (hq : q ∈ l) (hge : k ≤ q.1) :
    q ∈ l.dropWhile (fun p => p.1 < k) := by
  have hsplit := List.takeWhile_append_dropWhile (l := l) (p := fun p => p.1 < k)
  rw [← hsplit] at hq
  rcases List.mem_append.mp hq with h1 | h1
  · have := mem_takeWhile_lt h1
    omega
  · exact h1

theorem dropWhile_dropWhile_lt {V : Type} (l : List (Nat × Option V)) {a b : Nat}
    (hab : a ≤ b) :
    (l.dropWhile (fun p => p.1 < a)).dropWhile (fun p => p.1 < b) =
      l.dropWhile (fun p => p.1 < b) := by
  induction l with
  | nil => rfl
  | cons x l ih =>
    rw [List.dropWhile_cons, List.dropWhile_cons]
    simp only [decide_eq_true_eq]
    by_cases hx : x.1 < a
    · have hxb : x.1 < b := by omega
      rw [if_pos hx, if_pos hxb]
      exact ih
    · rw [if_neg hx, List.dropWhile_cons]
      simp only [decide_eq_true_eq]

theorem foundAt_true_iff {V : Type} {l : List (Nat × Option V)} {k : Nat}
    (hs : l.Pairwise (fun p q => p.1 < q.1)) :
    foundAt (l.dropWhile (fun p => p.1 < k)) k = true ↔ ∃ v, (k, v) ∈ l := by
  constructor
  · intro h
    cases hrest : l.dropWhile (fun p => p.1 < k) with
    | nil => rw [hrest] at h; simp [foundAt] at h
    | cons p t =>
      rw [hrest] at h
      simp only [foundAt, beq_iff_eq] at h
      refine ⟨p.2, ?_⟩
      have hmem : p ∈ l := (List.dropWhile_sublist _).mem (hrest ▸ List.mem_cons_self p t)
      have hp : (k, p.2) = p := by
        rw [← h]
      rw [hp]
      exact hmem
  · rintro ⟨v, hv⟩
    have hmem := mem_dropWhile_of_ge hv (le_refl k)
    cases hrest : l.dropWhile (fun p => p.1 < k) with
    | nil => rw [hrest] at hmem; simp at hmem
    | cons p t =>
      rw [hrest] at hmem
      have hge := mem_dropWhile_ge hs (k, v) (hrest ▸ hmem)
      have hple : p.1 ≤ k := by
        rcases List.mem_cons.mp hmem with h1 | h1
        · rw [← h1]
        · have hsd : (p :: t).Pairwise (fun p q => p.1 < q.1) :=
            hrest ▸ hs.sublist (List.dropWhile_sublist _)
          have := (List.pairwise_cons.mp hsd).1 (k, v) h1
          simp at this
          omega
      have hpge : k ≤ p.1 := mem_dropWhile_ge hs p (hrest ▸ List.mem_cons_self p t)
      simp only [foundAt, beq_iff_eq]
      omega

theorem dropWhile_eq_cons_of_mem {V : Type} {l : List (Nat × Option V)} {k : Nat}
    {v : Option V} (hs : l.Pairwise (fun p q => p.1 < q.1)) (hv : (k, v) ∈ l) :
    ∃ t, l.dropWhile (fun p => p.1 < k) = (k, v) :: t ∧ ∀ q ∈ t, k < q.1 := by
  have hmem := mem_dropWhile_of_ge hv (le_refl k)
  cases hrest : l.dropWhile (fun p => p.1 < k) with
  | nil => rw [hrest] at hmem; simp at hmem
  | cons p t =>
    rw [hrest] at hmem
    have hsd : (p :: t).Pairwise (fun p q => p.1 < q.1) :=
      hrest ▸ hs.sublist (List.dropWhile_sublist _)
    have hpge : k ≤ p.1 := mem_dropWhile_ge hs p (hrest ▸ List.mem_cons_self p t)
    have hpk : p = (k, v) := by
      rcases List.mem_cons.mp hmem with h1 | h1
      · exact h1.symm
      · exfalso
        have := (List.pairwise_cons.mp hsd).1 (k, v) h1
        simp at this
        omega
    refine ⟨t, by rw [hpk], ?_⟩
    intro q hq
    have := (List.pairwise_cons.mp hsd).1 q hq
    rw [hpk] at this
    simpa using this

theorem takeWhile_append_of_all {V : Type} {P : Nat × Option V → Bool}
    {l1 : List (Nat × Option V)} (l2 : List (Nat × Option V))
    (h : ∀ x ∈ l1, P x = true) : (l1 ++ l2).takeWhile P = l1 ++ l2.takeWhile P := by
  induction l1 with
  | nil => rfl
  | cons a l1 ih =>
    rw [List.cons_append, List.takeWhile_cons, if_pos (h a (List.mem_cons_self a l1)),
      ih fun x hx => h x (List.mem_cons_of_mem a hx), List.cons_append]

theorem insertAt_mem {V : Type} (l : List (Nat × Option V)) (sk k : Nat) (v : Option V)
    (x : Nat × Option V) : x ∈ insertAt l sk k v ↔ x = (k, v) ∨ x ∈ l := by
  have h1 : (l.dropWhile (fun p => p.1 < sk)).takeWhile (fun p => p.1 < k) ++
      (l.dropWhile (fun p => p.1 < sk)).dropWhile (fun p => p.1 < k) =
      l.dropWhile (fun p => p.1 < sk) :=
    List.takeWhile_append_dropWhile _ _
  have h2 : l.takeWhile (fun p => p.1 < sk) ++ l.dropWhile (fun p => p.1 < sk) = l :=
    List.takeWhile_append_dropWhile _ _
  rw [insertAt]
  simp only [List.mem_append, List.mem_cons]
  constructor
  · rintro (h | h | h | h)
    · exact Or.inr (by rw [← h2]; exact List.mem_append.mpr (Or.inl h))
    · refine Or.inr ?_
      rw [← h2]
      refine List.mem_append.mpr (Or.inr ?_)
      rw [← h1]
      exact List.mem_append.mpr (Or.inl h)
    · exact Or.inl h
    · refine Or.inr ?_
      rw [← h2]
      refine List.mem_append.mpr (Or.inr ?_)
      rw [← h1]
      exact List.mem_append.mpr (Or.inr h)
  · rintro (h | h)
    · exact Or.inr (Or.inr (Or.inl h))
    · rw [← h2] at h
      rcases List.mem_append.mp h with h3 | h3
      · exact Or.inl h3
      · rw [← h1] at h3
        rcases List.mem_append.mp h3 with h4 | h4
        · exact Or.inr (Or.inl h4)
        · exact Or.inr (Or.inr (Or.inr h4))

theorem pairwise_insert_mid {V : Type} {l1 l2 : List (Nat × Option V)} {k : Nat}
    {v : Option V} (h : (l1 ++ l2).Pairwise (fun p q => p.1 < q.1))
    (h1 : ∀ q ∈ l1, q.1 < k) (h2 : ∀ q ∈ l2, k < q.1) :
    (l1 ++ (k, v) :: l2).Pairwise (fun p q => p.1 < q.1) := by
  rw [List.pairwise_append] at h
  rw [List.pairwise_append]
  refine ⟨h.1, ?_, ?_⟩
  · rw [List.pairwise_cons]
    exact ⟨fun q hq => h2 q hq, h.2.1⟩
  · intro a ha b hb
    rcases List.mem_cons.mp hb with hb1 | hb1
    · rw [hb1]
      exact h1 a ha
    · exact h.2.2 a ha b hb1

theorem insertAt_sorted {V : Type} {l : List (Nat × Option V)} {sk k : Nat} {v : Option V}
    (hs : l.Pairwise (fun p q => p.1 < q.1)) (hsk : sk ≤ k)
    (hnot : ∀ q ∈ l, q.1 ≠ k) :
    (insertAt l sk k v).Pairwise (fun p q => p.1 < q.1) := by
  have h2 : l.takeWhile (fun p => p.1 < sk) ++ l.dropWhile (fun p => p.1 < sk) = l :=
    List.takeWhile_append_dropWhile _ _
  have h1 : (l.dropWhile (fun p => p.1 < sk)).takeWhile (fun p => p.1 < k) ++
      (l.dropWhile (fun p => p.1 < sk)).dropWhile (fun p => p.1 < k) =
      l.dropWhile (fun p => p.1 < sk) :=
    List.takeWhile_append_dropWhile _ _
  have hsd : (l.dropWhile (fun p => p.1 < sk)).Pairwise (fun p q => p.1 < q.1) :=
    hs.sublist (List.dropWhile_sublist _)
  rw [insertAt, ← List.append_assoc]
  apply pairwise_insert_mid
  · rw [List.append_assoc, h1, h2]
    exact hs
  · intro q hq
    rcases List.mem_append.mp hq with h3 | h3
    · have := mem_takeWhile_lt h3
      omega
    · exact mem_takeWhile_lt h3
  · intro q hq
    have hdd : q ∈ l.dropWhile (fun p => p.1 < k) := by
      rw [← dropWhile_dropWhile_lt l hsk]
      exact hq
    have hge := mem_dropWhile_ge hs q hdd
    have hne := hnot q ((List.dropWhile_sublist _).mem hdd)
    omega

theorem filter_decomp {V : Type} (l : List (Nat × Option V)) (sk k : Nat) :
    l.filter (fun p => p.2.isSome) =
      (l.takeWhile (fun p => p.1 < sk)).filter (fun p => p.2.isSome) ++
        (((l.dropWhile (fun p => p.1 < sk)).takeWhile (fun p => p.1 < k)).filter
            (fun p => p.2.isSome) ++
          ((l.dropWhile (fun p => p.1 < sk)).dropWhile (fun p => p.1 < k)).filter
            (fun p => p.2.isSome)) := by
  have h2 : l.takeWhile (fun p => p.1 < sk) ++ l.dropWhile (fun p => p.1 < sk) = l :=
    List.takeWhile_append_dropWhile _ _
  conv_lhs => rw [← h2]
  rw [List.filter_append]
  congr 1
  conv_lhs =>
    rw [← List.takeWhile_append_dropWhile (fun p => p.1 < k)
      (l.dropWhile (fun p => p.1 < sk))]
  rw [List.filter_append]

theorem insertAt_filter_none {V : Type} (l : List (Nat × Option V)) (sk k : Nat) :
    (insertAt l sk k none).filter (fun p => p.2.isSome) =
      l.filter (fun p => p.2.isSome) := by
  rw [insertAt, filter_decomp l sk k]
  simp [List.filter_append]

theorem insertAt_filter_some_len {V : Type} (l : List (Nat × Option V)) (sk k : Nat)
    (w : V) :
    ((insertAt l sk k (some w)).filter (fun p => p.2.isSome)).length =
      (l.filter (fun p => p.2.isSome)).length + 1 := by
  rw [insertAt, filter_decomp l sk k]
  simp [List.filter_append]
  omega

theorem deleteAt_spec {V : Type} {l : List (Nat × Option V)} {sk k : Nat} {v : Option V}
    (hs : l.Pairwise (fun p q => p.1 < q.1)) (hsk : sk ≤ k) (hv : (k, v) ∈ l) :
    ∃ t, l = l.takeWhile (fun p => p.1 < k) ++ (k, v) :: t ∧
      deleteAt l sk k = l.takeWhile (fun p => p.1 < k) ++ t ∧
      (∀ q ∈ t, k < q.1) := by
  obtain ⟨t, ht, htgt⟩ := dropWhile_eq_cons_of_mem hs hv
  have hpre : ∀ x ∈ l.takeWhile (fun p => p.1 < sk), decide (x.1 < k) = true := by
    intro x hx
    have := mem_takeWhile_lt hx
    exact decide_eq_true (by omega)
  have htake : l.takeWhile (fun p => p.1 < k) =
      l.takeWhile (fun p => p.1 < sk) ++
        (l.dropWhile (fun p => p.1 < sk)).takeWhile (fun p => p.1 < k) := by
    conv_lhs =>
      rw [← List.takeWhile_append_dropWhile (fun p => p.1 < sk) l]
    rw [takeWhile_append_of_all _ hpre]
  refine ⟨t, ?_, ?_, htgt⟩
  · conv_lhs =>
      rw [← List.takeWhile_append_dropWhile (fun p => p.1 < k) l]
    rw [ht]
  · rw [deleteAt, dropWhile_dropWhile_lt l hsk, ht, htake, List.append_assoc]
    rfl

theorem deleteAt_sorted {V : Type} {l : List (Nat × Option V)} {sk k : Nat} {v : Option V}
    (hs : l.Pairwise (fun p q => p.1 < q.1)) (hsk : sk ≤ k) (hv : (k, v) ∈ l) :
    (deleteAt l sk k).Pairwise (fun p q => p.1 < q.1) := by
  obtain ⟨t, hl, hd, _⟩ := deleteAt_spec hs hsk hv
  have hsub : deleteAt l sk k |>.Sublist l := by
    rw [hd]
    conv_rhs => rw [hl]
    exact (List.sublist_cons_self (k, v) t).append_left _
  exact hs.sublist hsub

theorem deleteAt_mem {V : Type} {l : List (Nat × Option V)} {sk k : Nat} {v : Option V}
    (hs : l.Pairwise (fun p q => p.1 < q.1)) (hsk : sk ≤ k) (hv : (k, v) ∈ l)
    (q : Nat × Option V) :
    q ∈ deleteAt l sk k ↔ q ∈ l ∧ q.1 ≠ k := by
  obtain ⟨t, hl, hd, htgt⟩ := deleteAt_spec hs hsk hv
  constructor
  · intro hq
    rw [hd] at hq
    rcases List.mem_append.mp hq with h1 | h1
    · have := mem_takeWhile_lt h1
      exact ⟨(List.takeWhile_sublist _).mem h1, by omega⟩
    · refine ⟨?_, by have := htgt q h1; omega⟩
      rw [hl]
      exact List.mem_append.mpr (Or.inr (List.mem_cons_of_mem _ h1))
  · rintro ⟨hq, hne⟩
    rw [hd]
    rw [hl] at hq
    rcases List.mem_append.mp hq with h1 | h1
    · exact List.mem_append.mpr (Or.inl h1)
    · rcases List.mem_cons.mp h1 with h2 | h2
      · exfalso
        rw [h2] at hne
        exact hne rfl
      · exact List.mem_append.mpr (Or.inr h2)

theorem deleteAt_filter_len {V : Type} {l : List (Nat × Option V)} {sk k : Nat} {w : V}
    (hs : l.Pairwise (fun p q => p.1 < q.1)) (hsk : sk ≤ k) (hv : (k, some w) ∈ l) :
    ((deleteAt l sk k).filter (fun p => p.2.isSome)).length + 1 =
      (l.filter (fun p => p.2.isSome)).length := by
  obtain ⟨t, hl, hd, _⟩ := deleteAt_spec hs hsk hv
  conv_rhs => rw [hl]
  rw [hd]
  simp [List.filter_append]
  omega

theorem lookup_bucket_hit {V : Type} (fuel : Nat) (s : SplitOrderedList V) (key : Nat)
    (hb : s.buckets (key &&& (2^63 - 1)) = true) :
    lookup_bucket (fuel+1) s key = some (s, reverse_bits (key &&& (2^63 - 1))) := by
  rw [lookup_bucket, if_pos hb]

theorem lookup_bucket_frame {V : Type} (fuel : Nat) (s : SplitOrderedList V) (key : Nat) :
    ∀ s1 sk, lookup_bucket fuel s key = some (s1, sk) →
      s1.size = s.size ∧ s1.count = s.count ∧
      s1.list.filter (fun p => p.2.isSome) = s.list.filter (fun p => p.2.isSome) ∧
      (∀ p ∈ s.list, p ∈ s1.list) ∧
      (∀ p ∈ s1.list, p ∈ s.list ∨ p.2 = none) ∧
      (∀ b, s.buckets b = true → s1.buckets b = true) ∧
      s1.buckets (key &&& (2^63 - 1)) = true ∧
      sk = reverse_bits (key &&& (2^63 - 1)) := by
  induction fuel generalizing key with
  | zero =>
    intro s1 sk h
    simp [lookup_bucket] at h
  | succ fuel ih =>
    intro s1 sk h
    rw [lookup_bucket] at h
    by_cases hb : s.buckets (key &&& (2^63 - 1)) = true
    · rw [if_pos hb] at h
      cases h
      exact ⟨rfl, rfl, rfl, fun p hp => hp, fun p hp => Or.inl hp, fun b hbb => hbb, hb, rfl⟩
    · rw [if_neg hb] at h
      cases hrec : lookup_bucket fuel s (key &&& parentMask key) with
      | none =>
        rw [hrec] at h
        simp at h
      | some pr =>
        obtain ⟨s2, psk⟩ := pr
        rw [hrec] at h
        obtain ⟨hsz, hct, hfil, hmem, hmem2, hbkt, _, _⟩ := ih _ _ _ hrec
        simp only at h
        by_cases hf :
            foundAt ((s2.list.dropWhile (fun p => p.1 < psk)).dropWhile
              (fun p => p.1 < reverse_bits (key &&& (2^63 - 1))))
              (reverse_bits (key &&& (2^63 - 1))) = true
        · rw [if_pos hf] at h
          cases h
          refine ⟨hsz, hct, hfil, hmem, fun p hp => hmem2 p hp, ?_, ?_, rfl⟩
          · intro b hbb
            simp only [Bool.or_eq_true]
            exact Or.inr (hbkt b hbb)
          · simp only [Bool.or_eq_true, beq_self_eq_true]
            exact Or.inl trivial
        · rw [if_neg hf] at h
          cases h
          simp only
          refine ⟨hsz, hct, ?_, ?_, ?_, ?_, ?_, trivial⟩
          · rw [insertAt_filter_none, hfil]
          · intro p hp
            exact (insertAt_mem _ _ _ _ _).mpr (Or.inr (hmem p hp))
          · intro p hp
            rcases (insertAt_mem _ _ _ _ _).mp hp with h1 | h1
            · rw [h1]
              exact Or.inr rfl
            · exact hmem2 p h1
          · intro b hbb
            simp only [Bool.or_eq_true]
            exact Or.inr (hbkt b hbb)
          · simp only [Bool.or_eq_true, beq_self_eq_true]
            exact Or.inl trivial

theorem and_m63_lt (key : Nat) : key &&& (2^63 - 1) < 2^63 := by
  rw [Nat.and_pow_two_sub_one_eq_mod]
  exact Nat.mod_lt _ (by norm_num)

theorem parent_sentinel_le (key : Nat) :
    reverse_bits ((key &&& parentMask key) &&& (2^63 - 1)) ≤
      reverse_bits (key &&& (2^63 - 1)) := by
  have hcomm : (key &&& parentMask key) &&& (2^63 - 1) =
      (key &&& (2^63 - 1)) &&& parentMask key := by
    rw [Nat.and_assoc, Nat.and_assoc, Nat.and_comm (parentMask key)]
  rw [hcomm]
  exact reverse_bits_and_le _ _

theorem sentinel_key_not_real {V : Type} {s2 : SplitOrderedList V} (hinv2 : SOLInv s2)
    {index : Nat} (hixlt : index < 2^63) {v : Option V}
    (hv : (reverse_bits index, v) ∈ s2.list) : v = none := by
  cases v with
  | none => rfl
  | some w =>
    exfalso
    obtain ⟨k', hk', hkey'⟩ := hinv2.real_shape _ hv (by simp)
    have heven := reverse_bits_even hixlt
    have hodd : (reverse_bits k' ||| 1) % 2 = 1 := by
      rw [real_key_eq hk']
      have := reverse_bits_even hk'
      omega
    simp only at hkey'
    omega

theorem lookup_bucket_inv {V : Type} (fuel : Nat) (s : SplitOrderedList V)
    (hinv : SOLInv s) : ∀ key, key < s.size → ∀ s1 sk,
    lookup_bucket fuel s key = some (s1, sk) → SOLInv s1 := by
  induction fuel with
  | zero =>
    intro key _ s1 sk h
    simp [lookup_bucket] at h
  | succ fuel ih =>
    intro key hkey s1 sk h
    rw [lookup_bucket] at h
    by_cases hb : s.buckets (key &&& (2^63 - 1)) = true
    · rw [if_pos hb] at h
      cases h
      exact hinv
    · rw [if_neg hb] at h
      cases hrec : lookup_bucket fuel s (key &&& parentMask key) with
      | none =>
        rw [hrec] at h
        simp at h
      | some pr =>
        obtain ⟨s2, psk⟩ := pr
        rw [hrec] at h
        have hinv2 : SOLInv s2 := ih _ (lt_of_le_of_lt Nat.and_le_left hkey) _ _ hrec
        obtain ⟨hsz, hct, hfil, hmem, hmem2, hbkt, hbidx, hpsk⟩ :=
          lookup_bucket_frame _ _ _ _ _ hrec
        have hixlt : key &&& (2^63 - 1) < 2^63 := and_m63_lt key
        have hixsz : key &&& (2^63 - 1) < s2.size := by
          rw [hsz]
          exact lt_of_le_of_lt Nat.and_le_left hkey
        have hple : psk ≤ reverse_bits (key &&& (2^63 - 1)) := by
          rw [hpsk]
          exact parent_sentinel_le key
        have hdd : (s2.list.dropWhile (fun p => p.1 < psk)).dropWhile
              (fun p => p.1 < reverse_bits (key &&& (2^63 - 1))) =
            s2.list.dropWhile (fun p => p.1 < reverse_bits (key &&& (2^63 - 1))) :=
          dropWhile_dropWhile_lt _ hple
        simp only at h
        by_cases hf :
            foundAt ((s2.list.dropWhile (fun p => p.1 < psk)).dropWhile
              (fun p => p.1 < reverse_bits (key &&& (2^63 - 1))))
              (reverse_bits (key &&& (2^63 - 1))) = true
        · rw [if_pos hf] at h
          cases h
          have hsent : (reverse_bits (key &&& (2^63 - 1)), (none : Option V)) ∈ s2.list := by
            rw [hdd] at hf
            obtain ⟨v, hv⟩ := (foundAt_true_iff hinv2.sorted).mp hf
            have := sentinel_key_not_real hinv2 hixlt hv
            rw [← this]
            exact hv
          refine ⟨hinv2.sorted, hinv2.sent_shape, hinv2.real_shape, ?_, ?_, ?_,
            hinv2.size_pow, hinv2.count_eq⟩
          · simp only [Bool.or_eq_true]
            exact Or.inr hinv2.bkt0
          · intro b hbb
            simp only [Bool.or_eq_true, beq_iff_eq] at hbb
            rcases hbb with h1 | h1
            · rw [h1]
              exact hixsz
            · exact hinv2.bkt_lt b h1
          · intro b hbb
            simp only [Bool.or_eq_true, beq_iff_eq] at hbb
            rcases hbb with h1 | h1
            · rw [h1]
              exact hsent
            · exact hinv2.bkt_sent b h1
        · rw [if_neg hf] at h
          cases h
          have hnotmem : ∀ q ∈ s2.list, q.1 ≠ reverse_bits (key &&& (2^63 - 1)) := by
            intro q hq hqe
            rw [hdd] at hf
            apply hf
            refine (foundAt_true_iff hinv2.sorted).mpr ⟨q.2, ?_⟩
            have : (reverse_bits (key &&& (2^63 - 1)), q.2) = q := by
              rw [← hqe]
            rw [this]
            exact hq
          have hmemiff := insertAt_mem s2.list psk (reverse_bits (key &&& (2^63 - 1)))
            (none : Option V)
          refine ⟨?_, ?_, ?_, ?_, ?_, ?_, ?_, ?_⟩
          · exact insertAt_sorted hinv2.sorted hple hnotmem
          · intro p hp hpn
            rcases (hmemiff p).mp hp with h1 | h1
            · rw [h1]
              exact ⟨key &&& (2^63 - 1), hixsz, rfl⟩
            · exact hinv2.sent_shape p h1 hpn
          · intro p hp hpn
            rcases (hmemiff p).mp hp with h1 | h1
            · exfalso
              rw [h1] at hpn
              exact hpn rfl
            · exact hinv2.real_shape p h1 hpn
          · simp only [Bool.or_eq_true]
            exact Or.inr hinv2.bkt0
          · intro b hbb
            simp only [Bool.or_eq_true, beq_iff_eq] at hbb
            rcases hbb with h1 | h1
            · rw [h1]
              exact hixsz
            · exact hinv2.bkt_lt b h1
          · intro b hbb
            simp only [Bool.or_eq_true, beq_iff_eq] at hbb
            rcases hbb with h1 | h1
            · rw [h1]
              exact (hmemiff _).mpr (Or.inl rfl)
            · exact (hmemiff _).mpr (Or.inr (hinv2.bkt_sent b h1))
          · exact hinv2.size_pow
          · rw [insertAt_filter_none]
            exact hinv2.count_eq

theorem nodup_length_le {l : List Nat} (hn : l.Nodup) {n : Nat} (hb : ∀ x ∈ l, x < n) :
    l.length ≤ n := by
  have h1 : l.toFinset.card = l.length := List.toFinset_card_of_nodup hn
  have h2 : l.toFinset ⊆ Finset.range n := by
    intro x hx
    simp only [List.mem_toFinset] at hx
    exact Finset.mem_range.mpr (hb x hx)
  have := Finset.card_le_card h2
  rw [h1, Finset.card_range] at this
  exact this

theorem nodup_length_le_excl {l : List Nat} (hn : l.Nodup) {n : Nat}
    (hb : ∀ x ∈ l, x < n) {e : Nat} (he : e < n) (hne : ∀ x ∈ l, x ≠ e) :
    l.length ≤ n - 1 := by
  have h1 : l.toFinset.card = l.length := List.toFinset_card_of_nodup hn
  have h2 : l.toFinset ⊆ Finset.range n \ {e} := by
    intro x hx
    simp only [List.mem_toFinset] at hx
    simp only [Finset.mem_sdiff, Finset.mem_range, Finset.mem_singleton]
    exact ⟨hb x hx, hne x hx⟩
  have h3 : (Finset.range n \ {e}).card = n - 1 := by
    rw [Finset.card_sdiff (by simp [Finset.mem_range, he]), Finset.card_range,
      Finset.card_singleton]
  have := Finset.card_le_card h2
  rw [h1, h3] at this
  exact this

theorem sorted_odd_length_le {V : Type} {l : List (Nat × Option V)}
    (hs : l.Pairwise (fun p q => p.1 < q.1))
    (hodd : ∀ p ∈ l, p.1 % 2 = 1) (hlt : ∀ p ∈ l, p.1 < 2^64) :
    l.length ≤ 2^63 := by
  have hK : (l.map Prod.fst).Pairwise (· < ·) := List.Pairwise.map _ (fun _ _ h => h) hs
  have hKn : (l.map Prod.fst).Nodup := hK.imp Nat.ne_of_lt
  have hGn : ((l.map Prod.fst).map (· / 2)).Nodup := by
    refine List.Nodup.map_on ?_ hKn
    intro x hx y hy hxy
    simp only [List.mem_map] at hx hy
    obtain ⟨p, hp, hpx⟩ := hx
    obtain ⟨q, hq, hqy⟩ := hy
    have h1 := hodd p hp
    have h2 := hodd q hq
    omega
  have hGb : ∀ x ∈ (l.map Prod.fst).map (· / 2), x < 2^63 := by
    intro x hx
    simp only [List.mem_map] at hx
    obtain ⟨y, hy, hyx⟩ := hx
    obtain ⟨p, hp, hpy⟩ := hy
    have := hlt p hp
    omega
  have := nodup_length_le hGn hGb
  rw [List.length_map, List.length_map] at this
  exact this

theorem sorted_odd_length_le_excl {V : Type} {l : List (Nat × Option V)}
    (hs : l.Pairwise (fun p q => p.1 < q.1))
    (hodd : ∀ p ∈ l, p.1 % 2 = 1) (hlt : ∀ p ∈ l, p.1 < 2^64)
    {rk : Nat} (hrk : rk % 2 = 1) (hrklt : rk < 2^64)
    (hnot : ∀ p ∈ l, p.1 ≠ rk) :
    l.length ≤ 2^63 - 1 := by
  have hK : (l.map Prod.fst).Pairwise (· < ·) := List.Pairwise.map _ (fun _ _ h => h) hs
  have hKn : (l.map Prod.fst).Nodup := hK.imp Nat.ne_of_lt
  have hGn : ((l.map Prod.fst).map (· / 2)).Nodup := by
    refine List.Nodup.map_on ?_ hKn
    intro x hx y hy hxy
    simp only [List.mem_map] at hx hy
    obtain ⟨p, hp, hpx⟩ := hx
    obtain ⟨q, hq, hqy⟩ := hy
    have h1 := hodd p hp
    have h2 := hodd q hq
    omega
  have hGb : ∀ x ∈ (l.map Prod.fst).map (· / 2), x < 2^63 := by
    intro x hx
    simp only [List.mem_map] at hx
    obtain ⟨y, hy, hyx⟩ := hx
    obtain ⟨p, hp, hpy⟩ := hy
    have := hlt p hp
    omega
  have hGe : ∀ x ∈ (l.map Prod.fst).map (· / 2), x ≠ rk / 2 := by
    intro x hx
    simp only [List.mem_map] at hx
    obtain ⟨y, hy, hyx⟩ := hx
    obtain ⟨p, hp, hpy⟩ := hy
    have h1 := hodd p hp
    have h2 := hnot p hp
    omega
  have := nodup_length_le_excl hGn hGb (show rk / 2 < 2^63 by omega) hGe
  rw [List.length_map, List.length_map] at this
  exact this

/-- The filtered list of real entries, with key facts from the invariant. -/
theorem reals_facts {V : Type} {s : SplitOrderedList V} (hinv : SOLInv s) :
    (s.list.filter (fun p => p.2.isSome)).Pairwise (fun p q => p.1 < q.1) ∧
    (∀ p ∈ s.list.filter (fun p => p.2.isSome), p.1 % 2 = 1) ∧
    (∀ p ∈ s.list.filter (fun p => p.2.isSome), p.1 < 2^64) := by
  refine ⟨hinv.sorted.sublist (List.filter_sublist _), ?_, ?_⟩
  · intro p hp
    have hmem := (List.filter_sublist _).mem hp
    have hsome := List.of_mem_filter hp
    obtain ⟨k, hk, hkey⟩ := hinv.real_shape p hmem (Option.isSome_iff_ne_none.mp hsome)
    rw [hkey, real_key_eq hk]
    have := reverse_bits_even hk
    omega
  · intro p hp
    have hmem := (List.filter_sublist _).mem hp
    have hsome := List.of_mem_filter hp
    obtain ⟨k, hk, hkey⟩ := hinv.real_shape p hmem (Option.isSome_iff_ne_none.mp hsome)
    rw [hkey, real_key_eq hk]
    have := reverse_bits_lt k
    have := reverse_bits_even hk
    omega

theorem reverse_bits_zero : reverse_bits 0 = 0 := revAux_zero 64

theorem SOLInv_new (V : Type) : SOLInv (SplitOrderedList.new V) := by
  refine ⟨?_, ?_, ?_, rfl, ?_, ?_, ⟨1, by norm_num, by norm_num, rfl⟩, rfl⟩
  · simp [SplitOrderedList.new]
  · intro p hp hpn
    simp only [SplitOrderedList.new, List.mem_singleton] at hp
    refine ⟨0, by norm_num [SplitOrderedList.new], ?_⟩
    rw [hp, reverse_bits_zero]
  · intro p hp hpn
    simp only [SplitOrderedList.new, List.mem_singleton] at hp
    exfalso
    rw [hp] at hpn
    exact hpn rfl
  · intro b hb
    simp only [SplitOrderedList.new, beq_iff_eq] at hb
    rw [hb]
    norm_num [SplitOrderedList.new]
  · intro b hb
    simp only [SplitOrderedList.new, beq_iff_eq] at hb
    rw [hb, reverse_bits_zero]
    simp [SplitOrderedList.new]

theorem bitLen_le {m : Nat} : ∀ (fuel n : Nat), n < 2^m → bitLen fuel n ≤ m := by
  intro fuel
  induction fuel generalizing m with
  | zero => intro n _; simp [bitLen]
  | succ fuel ih =>
    intro n hn
    rw [bitLen]
    by_cases h0 : n = 0
    · simp [h0]
    · rw [if_neg h0]
      cases m with
      | zero =>
        simp at hn
        omega
      | succ m =>
        have : n / 2 < 2^m := by
          rw [Nat.pow_succ] at hn
          omega
        have := ih (n / 2) this
        omega

theorem bitLen_full : ∀ (fuel n : Nat), 2^fuel ≤ 2 * n → bitLen fuel n = fuel := by
  intro fuel
  induction fuel with
  | zero => intro n _; rfl
  | succ fuel ih =>
    intro n hn
    have h0 : n ≠ 0 := by
      have : 1 ≤ (2:Nat)^fuel := Nat.one_le_two_pow
      rw [Nat.pow_succ] at hn
      omega
    rw [bitLen, if_neg h0]
    have hl : bitLen fuel (n / 2) = fuel := by
      cases fuel with
      | zero => rfl
      | succ f =>
        apply ih
        have h2 : 2^(f+1) ≤ n := by
          have : 1 ≤ (2:Nat)^(f+1) := Nat.one_le_two_pow
          rw [Nat.pow_succ] at hn
          omega
        have h3 : 2^f ≤ n / 2 := by
          rw [Nat.pow_succ] at h2
          omega
        rw [Nat.pow_succ]
        omega
    omega

theorem assert_valid_key_iff (key : Nat) : assert_valid_key key = true ↔ key < 2^63 := by
  unfold assert_valid_key leading_zeros
  rw [bne_iff_ne, ne_eq]
  constructor
  · intro h
    by_contra hge
    push_neg at hge
    have : bitLen 64 key = 64 := by
      apply bitLen_full
      calc (2:Nat)^64 = 2 * 2^63 := by norm_num
        _ ≤ 2 * key := by omega
    omega
  · intro h
    have := bitLen_le 64 key h
    omega

/-- C8. Each of `lookup`, `insert`, `delete` begins with
`assert_valid_key`, whose assertion `key.leading_zeros() != 0` passes exactly
when the key's most-significant (64th) bit is zero; for a key with that bit
set the assertion fires and the operation panics (produces no result) rather
than silently proceeding. -/
theorem claim_C8_key_validation (key : Nat) :
    (assert_valid_key key = true ↔ key < 2^63) ∧
    (2^63 ≤ key → ∀ (V : Type) (s : SplitOrderedList V) (v : V),
      SplitOrderedList.lookup s key = none ∧
      SplitOrderedList.insert s key v = none ∧
      SplitOrderedList.delete s key = none) := by
  refine ⟨assert_valid_key_iff key, ?_⟩
  intro hk V s v
  have ha : assert_valid_key key = false := by
    rw [← Bool.not_eq_true, assert_valid_key_iff]
    omega
  refine ⟨?_, ?_, ?_⟩
  · rw [SplitOrderedList.lookup, ha]
    rfl
  · rw [SplitOrderedList.insert, ha]
    rfl
  · rw [SplitOrderedList.delete, ha]
    rfl

theorem claim_C8_witness :
    (assert_valid_key 5 = true ↔ 5 < 2^63) ∧
    (SplitOrderedList.lookup (SplitOrderedList.new Nat) (2^63) = none ∧
      SplitOrderedList.insert (SplitOrderedList.new Nat) (2^63) 0 = none ∧
      SplitOrderedList.delete (SplitOrderedList.new Nat) (2^63) = none) :=
  ⟨(claim_C8_key_validation 5).1,
   (claim_C8_key_validation (2^63)).2 (le_refl _) Nat (SplitOrderedList.new Nat) 0⟩

theorem ite_not_true {α : Type} (x y : α) : (if (!true) = true then x else y) = y := rfl

theorem ite_not_false {α : Type} (x y : α) : (if (!false) = true then x else y) = x := rfl

theorem lookup_eval {V : Type} (s : SplitOrderedList V) (key : Nat)
    (ha : assert_valid_key key = true) {s2 : SplitOrderedList V} {sk : Nat}
    (hlb : lookup_bucket 64 s (key &&& wrapping_sub_one s.size) = some (s2, sk)) :
    SplitOrderedList.lookup s key =
      (if foundAt ((s2.list.dropWhile (fun p => p.1 < sk)).dropWhile
            (fun p => p.1 < (reverse_bits key ||| 1))) (reverse_bits key ||| 1) = true
       then
         match (s2.list.dropWhile (fun p => p.1 < sk)).dropWhile
            (fun p => p.1 < (reverse_bits key ||| 1)) with
         | [] => none
         | p :: _ => some (s2, p.2)
       else some (s2, none)) := by
  rw [SplitOrderedList.lookup, ha, ite_not_true, SplitOrderedList.find]
  rw [hlb]

theorem insert_eval {V : Type} (s : SplitOrderedList V) (key : Nat) (v : V)
    (ha : assert_valid_key key = true) {s2 : SplitOrderedList V} {sk : Nat}
    (hlb : lookup_bucket 64 s (key &&& wrapping_sub_one s.size) = some (s2, sk)) :
    SplitOrderedList.insert s key v =
      (if foundAt ((s2.list.dropWhile (fun p => p.1 < sk)).dropWhile
            (fun p => p.1 < (reverse_bits key ||| 1))) (reverse_bits key ||| 1) = true
       then some (s2, Except.error v)
       else
         some ((if (s2.count + 1) % 2^64 > (s.size * LOAD_FACTOR) % 2^64 then
                 (if s2.size = s.size then
                   { s2 with
                       list := insertAt s2.list sk (reverse_bits key ||| 1) (some v),
                       count := (s2.count + 1) % 2^64,
                       size := (s.size * 2) % 2^64 }
                  else
                   { s2 with
                       list := insertAt s2.list sk (reverse_bits key ||| 1) (some v),
                       count := (s2.count + 1) % 2^64 })
                else
                 { s2 with
                     list := insertAt s2.list sk (reverse_bits key ||| 1) (some v),
                     count := (s2.count + 1) % 2^64 }), Except.ok ())) := by
  rw [SplitOrderedList.insert, ha, ite_not_true]
  simp only [hlb]

theorem delete_eval {V : Type} (s : SplitOrderedList V) (key : Nat)
    (ha : assert_valid_key key = true) {s2 : SplitOrderedList V} {sk : Nat}
    (hlb : lookup_bucket 64 s (key &&& wrapping_sub_one s.size) = some (s2, sk)) :
    SplitOrderedList.delete s key =
      (match (s2.list.dropWhile (fun p => p.1 < sk)).dropWhile
          (fun p => p.1 < (reverse_bits key ||| 1)) with
       | [] => some (s2, Except.error ())
       | p :: _ =>
         if p.1 == (reverse_bits key ||| 1) then
           match p.2 with
           | some v =>
             some ({ s2 with
                       list := deleteAt s2.list sk (reverse_bits key ||| 1),
                       count := (s2.count + (2^64 - 1)) % 2^64 }, Except.ok v)
           | none => none
         else some (s2, Except.error ())) := by
  rw [SplitOrderedList.delete, ha, ite_not_true]
  simp only [hlb]

/-- C4 counterexample: on a fresh map (where bucket 1 is uninitialized),
`lookup(1)` inserts a sentinel node into the shared list and writes the
Segmented-Index slot for bucket 1, contradicting "the Segmented-Index slot
contents and the set of nodes in the shared sorted list are unchanged". -/
theorem claim_C4_counterexample :
    ((SplitOrderedList.lookup (SplitOrderedList.new Nat) 1).map (fun p => p.1.list)) ≠
      some (SplitOrderedList.new Nat).list ∧
    ((SplitOrderedList.lookup (SplitOrderedList.new Nat) 1).map (fun p => p.1.buckets 1)) =
      some true ∧
    (SplitOrderedList.new Nat).buckets 1 = false := by
  refine ⟨by decide, by decide, by decide⟩

theorem lookup_frame_effects {V : Type} (s : SplitOrderedList V) (key : Nat)
    (s1 : SplitOrderedList V) (r : Option V)
    (h : SplitOrderedList.lookup s key = some (s1, r)) :
    s1.size = s.size ∧ s1.count = s.count ∧
    s1.list.filter (fun p => p.2.isSome) = s.list.filter (fun p => p.2.isSome) ∧
    (∀ p ∈ s.list, p ∈ s1.list) ∧ (∀ p ∈ s1.list, p ∈ s.list ∨ p.2 = none) := by
  cases ha : assert_valid_key key with
  | false =>
    rw [SplitOrderedList.lookup, ha, ite_not_false] at h
    simp at h
  | true =>
    cases hlb : lookup_bucket 64 s (key &&& wrapping_sub_one s.size) with
    | none =>
      rw [SplitOrderedList.lookup, ha, ite_not_true, SplitOrderedList.find] at h
      simp only [hlb] at h
      exact absurd h (by simp)
    | some pr =>
      obtain ⟨s2, sk⟩ := pr
      rw [lookup_eval s key ha hlb] at h
      obtain ⟨hsz, hct, hfil, hmem, hmem2, _, _, _⟩ := lookup_bucket_frame _ _ _ _ _ hlb
      by_cases hf :
          foundAt ((s2.list.dropWhile (fun p => p.1 < sk)).dropWhile
            (fun p => p.1 < (reverse_bits key ||| 1))) (reverse_bits key ||| 1) = true
      · rw [if_pos hf] at h
        cases hrest : (s2.list.dropWhile (fun p => p.1 < sk)).dropWhile
            (fun p => p.1 < (reverse_bits key ||| 1)) with
        | nil =>
          rw [hrest] at h
          simp at h
        | cons p t =>
          rw [hrest] at h
          simp only [Option.some_inj, Prod.mk.injEq] at h
          obtain ⟨h1, h2⟩ := h
          subst h1
          exact ⟨hsz, hct, hfil, hmem, hmem2⟩
      · rw [if_neg hf] at h
        simp only [Option.some_inj, Prod.mk.injEq] at h
        obtain ⟨h1, h2⟩ := h
        subst h1
        exact ⟨hsz, hct, hfil, hmem, hmem2⟩

/-- C4, amended: `lookup` leaves `size`, `count`, and the real
(value-carrying) entries of the shared list unchanged, and it never removes
nodes; it may however lazily initialize buckets, inserting sentinel
(payload-free) nodes into the shared list and filling Segmented-Index slots. -/
theorem claim_C4_lookup_effects {V : Type} (s : SplitOrderedList V) (key : Nat)
    (s1 : SplitOrderedList V) (r : Option V)
    (h : SplitOrderedList.lookup s key = some (s1, r)) :
    s1.size = s.size ∧ s1.count = s.count ∧
    s1.list.filter (fun p => p.2.isSome) = s.list.filter (fun p => p.2.isSome) ∧
    (∀ p ∈ s.list, p ∈ s1.list) ∧ (∀ p ∈ s1.list, p ∈ s.list ∨ p.2 = none) :=
  lookup_frame_effects s key s1 r h

theorem insert_ok_count_size {V : Type} {s s1 : SplitOrderedList V} {k : Nat} {v : V}
    (h : SplitOrderedList.insert s k v = some (s1, Except.ok ())) :
    s1.count = (s.count + 1) % 2^64 ∧
    s1.size = (if (s.count + 1) % 2^64 > (s.size * LOAD_FACTOR) % 2^64
      then (s.size * 2) % 2^64 else s.size) := by
  cases ha : assert_valid_key k with
  | false =>
    rw [SplitOrderedList.insert, ha, ite_not_false] at h
    exact absurd h (by simp)
  | true =>
    cases hlb : lookup_bucket 64 s (k &&& wrapping_sub_one s.size) with
    | none =>
      rw [SplitOrderedList.insert, ha, ite_not_true] at h
      simp only [hlb] at h
      exact absurd h (by simp)
    | some pr =>
      obtain ⟨s2, sk⟩ := pr
      obtain ⟨hsz, hct, _, _, _, _, _, _⟩ := lookup_bucket_frame _ _ _ _ _ hlb
      rw [insert_eval s k v ha hlb] at h
      by_cases hf :
          foundAt ((s2.list.dropWhile (fun p => p.1 < sk)).dropWhile
            (fun p => p.1 < (reverse_bits k ||| 1))) (reverse_bits k ||| 1) = true
      · rw [if_pos hf] at h
        simp at h
      · rw [if_neg hf] at h
        rw [hct] at h
        by_cases hc : (s.count + 1) % 2^64 > (s.size * LOAD_FACTOR) % 2^64
        · rw [if_pos hc, if_pos hsz] at h
          simp only [Option.some_inj, Prod.mk.injEq] at h
          obtain ⟨h1, _⟩ := h
          rw [← h1, if_pos hc]
          exact ⟨rfl, rfl⟩
        · rw [if_neg hc] at h
          simp only [Option.some_inj, Prod.mk.injEq] at h
          obtain ⟨h1, _⟩ := h
          rw [← h1, if_neg hc]
          exact ⟨rfl, hsz⟩

/-- The single-threaded driver of the spec's concrete resize scenario:
insert each key (with itself as value), requiring every insert to succeed. -/
def insertAll (s : SplitOrderedList Nat) : List Nat → Option (SplitOrderedList Nat)
  | [] => some s
  | k :: ks =>
    match SplitOrderedList.insert s k k with
    | some (s1, Except.ok ()) => insertAll s1 ks
    | _ => none

/-- The state reached by inserting key 2 (value 7) into a fresh map;
`reverse_bits 2 ||| 1 = 2^62 + 1`. -/
def c5state : SplitOrderedList Nat :=
  { list := [(0, none), (4611686018427387905, some 7)], buckets := fun b => b == 0,
    size := 2, count := 1 }

/-- C5. Every successful insert increments `count` by exactly one (modulo the
word size in general; exactly, on invariant-satisfying states), and then
doubles `size` — via the single sequentially-successful CAS — iff the
incremented count exceeds `size * LOAD_FACTOR` with `LOAD_FACTOR = 2`, where
`size` is the value read at the start of that insert; in particular
sequentially inserting keys 0,1,2,3,4 into a fresh map ends with `count = 5`
and `size = 4`. -/
theorem claim_C5_resize_policy :
    (∀ (V : Type) (s : SplitOrderedList V) (k : Nat) (v : V) (s1 : SplitOrderedList V),
      SplitOrderedList.insert s k v = some (s1, Except.ok ()) →
        s1.count = (s.count + 1) % 2^64 ∧
        s1.size = (if (s.count + 1) % 2^64 > (s.size * LOAD_FACTOR) % 2^64
          then (s.size * 2) % 2^64 else s.size)) ∧
    (∀ (V : Type) (s : SplitOrderedList V) (k : Nat) (v : V) (s1 : SplitOrderedList V),
      SOLInv s →
      SplitOrderedList.insert s k v = some (s1, Except.ok ()) →
        s1.count = s.count + 1 ∧
        s1.size = (if s.count + 1 > s.size * LOAD_FACTOR then s.size * 2 else s.size)) ∧
    (insertAll (SplitOrderedList.new Nat) [0, 1, 2, 3, 4]).map (fun t => (t.count, t.size)) =
      some (5, 4) := by
  refine ⟨fun V s k v s1 h => insert_ok_count_size h, ?_, by decide⟩
  intro V s k v s1 hinv h
  obtain ⟨hc, hsz⟩ := insert_ok_count_size h
  obtain ⟨hso, hodd, hlt⟩ := reals_facts hinv
  have hcle : s.count ≤ 2^63 := by
    rw [hinv.count_eq]
    exact sorted_odd_length_le hso hodd hlt
  obtain ⟨m, hm1, hm2, hm⟩ := hinv.size_pow
  have hszle : s.size * 2 ≤ 2^63 := by
    rw [hm]
    calc 2^m * 2 ≤ 2^62 * 2 := by
          have : (2:Nat)^m ≤ 2^62 := Nat.pow_le_pow_right (by omega) hm2
          omega
      _ ≤ 2^63 := by norm_num
  have e1 : (s.count + 1) % 2^64 = s.count + 1 := Nat.mod_eq_of_lt (by norm_num at hcle ⊢; omega)
  have e2 : (s.size * LOAD_FACTOR) % 2^64 = s.size * LOAD_FACTOR := by
    rw [LOAD_FACTOR]
    exact Nat.mod_eq_of_lt (by norm_num at hszle ⊢; omega)
  have e3 : (s.size * 2) % 2^64 = s.size * 2 := Nat.mod_eq_of_lt (by norm_num at hszle ⊢; omega)
  rw [e1, e2, e3] at hsz
  rw [e1] at hc
  rw [LOAD_FACTOR] at hsz ⊢
  exact ⟨hc, hsz⟩

theorem claim_C5_witness :
    SplitOrderedList.insert (SplitOrderedList.new Nat) 2 7 = some (c5state, Except.ok ()) ∧
    SOLInv (SplitOrderedList.new Nat) ∧
    (c5state.count = (SplitOrderedList.new Nat).count + 1 ∧
      c5state.size = (if (SplitOrderedList.new Nat).count + 1 >
          (SplitOrderedList.new Nat).size * LOAD_FACTOR
        then (SplitOrderedList.new Nat).size * 2 else (SplitOrderedList.new Nat).size)) :=
  ⟨rfl, SOLInv_new Nat,
   claim_C5_resize_policy.2.1 Nat (SplitOrderedList.new Nat) 2 7 c5state (SOLInv_new Nat) rfl⟩

/-- The state reached by `lookup 1` on a fresh map: the sentinel for bucket 1
(key `reverse_bits 1 = 2^63`) has been lazily created. -/
def c4state : SplitOrderedList Nat :=
  { list := [(0, none), (9223372036854775808, none)],
    buckets := fun b => b == 1 || b == 0, size := 2, count := 0 }

theorem claim_C4_witness :
    SplitOrderedList.lookup (SplitOrderedList.new Nat) 1 = some (c4state, none) ∧
    (c4state.size = (SplitOrderedList.new Nat).size ∧
      c4state.count = (SplitOrderedList.new Nat).count ∧
      c4state.list.filter (fun p => p.2.isSome) =
        (SplitOrderedList.new Nat).list.filter (fun p => p.2.isSome) ∧
      (∀ p ∈ (SplitOrderedList.new Nat).list, p ∈ c4state.list) ∧
      (∀ p ∈ c4state.list, p ∈ (SplitOrderedList.new Nat).list ∨ p.2 = none)) :=
  ⟨rfl, claim_C4_lookup_effects (SplitOrderedList.new Nat) 1 c4state none rfl⟩

theorem bucket_key_lt {V : Type} {s : SplitOrderedList V} (hinv : SOLInv s) (key : Nat) :
    key &&& wrapping_sub_one s.size < s.size := by
  obtain ⟨m, hm1, hm2, hm⟩ := hinv.size_pow
  have hw : wrapping_sub_one s.size = 2^m - 1 := by
    rw [hm, wrapping_sub_one]
    have h1 : (2:Nat)^m ≤ 2^62 := Nat.pow_le_pow_right (by omega) hm2
    have h2 : (1:Nat) ≤ 2^m := Nat.one_le_two_pow
    have he : 2^m + (2^64 - 1) = 2^64 + (2^m - 1) := by norm_num at h1 ⊢; omega
    rw [he, Nat.add_mod_left]
    exact Nat.mod_eq_of_lt (by norm_num at h1 ⊢; omega)
  rw [hw, Nat.and_pow_two_sub_one_eq_mod, hm]
  exact Nat.mod_lt _ (Nat.pos_pow_of_pos _ (by omega))

theorem size_le_62_pow {V : Type} {s : SplitOrderedList V} (hinv : SOLInv s) :
    s.size < 2^63 := by
  obtain ⟨m, _, hm2, hm⟩ := hinv.size_pow
  rw [hm]
  calc (2:Nat)^m ≤ 2^62 := Nat.pow_le_pow_right (by omega) hm2
    _ < 2^63 := by norm_num

theorem sk_eq_of_lb {V : Type} {s : SplitOrderedList V} (hinv : SOLInv s) (key : Nat)
    {s2 : SplitOrderedList V} {sk : Nat}
    (hlb : lookup_bucket 64 s (key &&& wrapping_sub_one s.size) = some (s2, sk)) :
    sk = reverse_bits (key &&& wrapping_sub_one s.size) := by
  obtain ⟨_, _, _, _, _, _, _, hsk⟩ := lookup_bucket_frame _ _ _ _ _ hlb
  have hble : key &&& wrapping_sub_one s.size < 2^63 :=
    lt_trans (lt_of_lt_of_le (bucket_key_lt hinv key) (le_refl _)) (size_le_62_pow hinv)
  have : (key &&& wrapping_sub_one s.size) &&& (2^63 - 1) =
      key &&& wrapping_sub_one s.size := by
    rw [Nat.and_pow_two_sub_one_eq_mod]
    exact Nat.mod_eq_of_lt hble
  rw [hsk, this]

theorem rk_odd {key : Nat} (hk : key < 2^63) : (reverse_bits key ||| 1) % 2 = 1 := by
  rw [real_key_eq hk]
  have := reverse_bits_even hk
  omega

theorem rk_lt {key : Nat} (hk : key < 2^63) : (reverse_bits key ||| 1) < 2^64 := by
  rw [real_key_eq hk]
  have h1 := reverse_bits_lt key
  have h2 := reverse_bits_even hk
  omega

theorem sk_le_rk {V : Type} {s : SplitOrderedList V} (hinv : SOLInv s) {key : Nat}
    (hk : key < 2^63) {s2 : SplitOrderedList V} {sk : Nat}
    (hlb : lookup_bucket 64 s (key &&& wrapping_sub_one s.size) = some (s2, sk)) :
    sk ≤ (reverse_bits key ||| 1) := by
  rw [sk_eq_of_lb hinv key hlb, real_key_eq hk]
  calc reverse_bits (key &&& wrapping_sub_one s.size) ≤ reverse_bits key :=
        reverse_bits_and_le _ _
    _ ≤ reverse_bits key + 1 := by omega

theorem not_found_not_mem {V : Type} {s2 : SplitOrderedList V} (hinv2 : SOLInv s2)
    {sk rk : Nat} (hskle : sk ≤ rk)
    (hf : ¬ foundAt ((s2.list.dropWhile (fun p => p.1 < sk)).dropWhile
      (fun p => p.1 < rk)) rk = true) :
    ∀ q ∈ s2.list, q.1 ≠ rk := by
  intro q hq hqe
  rw [dropWhile_dropWhile_lt _ hskle] at hf
  apply hf
  refine (foundAt_true_iff hinv2.sorted).mpr ⟨q.2, ?_⟩
  have : (rk, q.2) = q := by rw [← hqe]
  rw [this]
  exact hq

theorem insert_inv {V : Type} {s s1 : SplitOrderedList V} {key : Nat} {v : V}
    {r : Except V Unit} (hinv : SOLInv s)
    (h : SplitOrderedList.insert s key v = some (s1, r)) : SOLInv s1 := by
  cases ha : assert_valid_key key with
  | false =>
    rw [SplitOrderedList.insert, ha, ite_not_false] at h
    exact absurd h (by simp)
  | true =>
    have hk : key < 2^63 := (assert_valid_key_iff key).mp ha
    cases hlb : lookup_bucket 64 s (key &&& wrapping_sub_one s.size) with
    | none =>
      rw [SplitOrderedList.insert, ha, ite_not_true] at h
      simp only [hlb] at h
      exact absurd h (by simp)
    | some pr =>
      obtain ⟨s2, sk⟩ := pr
      have hinv2 : SOLInv s2 :=
        lookup_bucket_inv 64 s hinv _ (bucket_key_lt hinv key) _ _ hlb
      obtain ⟨hsz, hct, hfil, _, _, _, _, _⟩ := lookup_bucket_frame _ _ _ _ _ hlb
      have hskle : sk ≤ (reverse_bits key ||| 1) := sk_le_rk hinv hk hlb
      rw [insert_eval s key v ha hlb] at h
      by_cases hf :
          foundAt ((s2.list.dropWhile (fun p => p.1 < sk)).dropWhile
            (fun p => p.1 < (reverse_bits key ||| 1))) (reverse_bits key ||| 1) = true
      · rw [if_pos hf] at h
        simp only [Option.some_inj, Prod.mk.injEq] at h
        obtain ⟨h1, _⟩ := h
        rw [← h1]
        exact hinv2
      · rw [if_neg hf] at h
        have habs : ∀ q ∈ s2.list, q.1 ≠ (reverse_bits key ||| 1) :=
          not_found_not_mem hinv2 hskle hf
        obtain ⟨hso, hodd, hlt⟩ := reals_facts hinv2
        have hrodd := rk_odd hk
        have hrlt := rk_lt hk
        have hcount_bound : s2.count ≤ 2^63 - 1 := by
          rw [hinv2.count_eq]
          refine sorted_odd_length_le_excl hso hodd hlt hrodd hrlt ?_
          intro p hp
          exact habs p ((List.filter_sublist _).mem hp)
        have hcmod : (s2.count + 1) % 2^64 = s2.count + 1 :=
          Nat.mod_eq_of_lt (by norm_num at hcount_bound ⊢; omega)
        obtain ⟨m, hm1, hm2, hm⟩ := hinv.size_pow
        have hs2sz : s2.size = 2^m := by rw [hsz, hm]
        have hszmod : (s.size * 2) % 2^64 = 2^(m+1) := by
          rw [hm, ← Nat.pow_succ]
          exact Nat.mod_eq_of_lt (Nat.pow_lt_pow_right (by omega) (by omega))
        have hsorted' := @insertAt_sorted V s2.list sk (reverse_bits key ||| 1) (some v)
          hinv2.sorted hskle habs
        have hmemiff := insertAt_mem s2.list sk (reverse_bits key ||| 1) (some v)
        have hcnt' : ((insertAt s2.list sk (reverse_bits key ||| 1) (some v)).filter
            (fun p => p.2.isSome)).length = s2.count + 1 := by
          rw [insertAt_filter_some_len, ← hinv2.count_eq]
        by_cases hc : (s2.count + 1) % 2^64 > (s.size * LOAD_FACTOR) % 2^64
        · rw [if_pos hc, if_pos hsz] at h
          simp only [Option.some_inj, Prod.mk.injEq] at h
          obtain ⟨h1, _⟩ := h
          have hm62 : m + 1 ≤ 62 := by
            unfold LOAD_FACTOR at hc
            rw [hcmod, hszmod] at hc
            have h2 : (2:Nat)^(m+1) < 2^63 := by
              norm_num at hcount_bound ⊢
              omega
            have := (Nat.pow_lt_pow_iff_right (a := 2) (by omega)).mp h2
            omega
          rw [← h1]
          refine ⟨hsorted', ?_, ?_, hinv2.bkt0, ?_, ?_, ⟨m + 1, by omega, hm62, hszmod⟩, ?_⟩
          · intro p hp hpn
            rcases (hmemiff p).mp hp with h2 | h2
            · exfalso
              rw [h2] at hpn
              simp at hpn
            · obtain ⟨b, hb, hbe⟩ := hinv2.sent_shape p h2 hpn
              refine ⟨b, ?_, hbe⟩
              have : b < s.size := by rw [← hsz]; exact hb
              calc b < s.size := this
                _ ≤ (s.size * 2) % 2^64 := by
                    rw [hszmod, hm]
                    exact Nat.pow_le_pow_right (by omega) (by omega)
          · intro p hp hpn
            rcases (hmemiff p).mp hp with h2 | h2
            · rw [h2]
              exact ⟨key, hk, rfl⟩
            · exact hinv2.real_shape p h2 hpn
          · intro b hb
            have := hinv2.bkt_lt b hb
            calc b < s2.size := this
              _ = 2^m := hs2sz
              _ ≤ (s.size * 2) % 2^64 := by
                  rw [hszmod]
                  exact Nat.pow_le_pow_right (by omega) (by omega)
          · intro b hb
            exact (hmemiff _).mpr (Or.inr (hinv2.bkt_sent b hb))
          · rw [hcmod, hcnt']
        · rw [if_neg hc] at h
          simp only [Option.some_inj, Prod.mk.injEq] at h
          obtain ⟨h1, _⟩ := h
          rw [← h1]
          refine ⟨hsorted', ?_, ?_, hinv2.bkt0, hinv2.bkt_lt, ?_, hinv2.size_pow, ?_⟩
          · intro p hp hpn
            rcases (hmemiff p).mp hp with h2 | h2
            · exfalso
              rw [h2] at hpn
              simp at hpn
            · exact hinv2.sent_shape p h2 hpn
          · intro p hp hpn
            rcases (hmemiff p).mp hp with h2 | h2
            · rw [h2]
              exact ⟨key, hk, rfl⟩
            · exact hinv2.real_shape p h2 hpn
          · intro b hb
            exact (hmemiff _).mpr (Or.inr (hinv2.bkt_sent b hb))
          · rw [hcmod, hcnt']

theorem lookup_inv {V : Type} {s s1 : SplitOrderedList V} {key : Nat} {r : Option V}
    (hinv : SOLInv s) (h : SplitOrderedList.lookup s key = some (s1, r)) : SOLInv s1 := by
  cases ha : assert_valid_key key with
  | false =>
    rw [SplitOrderedList.lookup, ha, ite_not_false] at h
    exact absurd h (by simp)
  | true =>
    cases hlb : lookup_bucket 64 s (key &&& wrapping_sub_one s.size) with
    | none =>
      rw [SplitOrderedList.lookup, ha, ite_not_true, SplitOrderedList.find] at h
      simp only [hlb] at h
      exact absurd h (by simp)
    | some pr =>
      obtain ⟨s2, sk⟩ := pr
      have hinv2 : SOLInv s2 :=
        lookup_bucket_inv 64 s hinv _ (bucket_key_lt hinv key) _ _ hlb
      rw [lookup_eval s key ha hlb] at h
      by_cases hf :
          foundAt ((s2.list.dropWhile (fun p => p.1 < sk)).dropWhile
            (fun p => p.1 < (reverse_bits key ||| 1))) (reverse_bits key ||| 1) = true
      · rw [if_pos hf] at h
        cases hrest : (s2.list.dropWhile (fun p => p.1 < sk)).dropWhile
            (fun p => p.1 < (reverse_bits key ||| 1)) with
        | nil =>
          rw [hrest] at h
          exact absurd h (by simp)
        | cons p t =>
          rw [hrest] at h
          simp only [Option.some_inj, Prod.mk.injEq] at h
          obtain ⟨h1, _⟩ := h
          rw [← h1]
          exact hinv2
      · rw [if_neg hf] at h
        simp only [Option.some_inj, Prod.mk.injEq] at h
        obtain ⟨h1, _⟩ := h
        rw [← h1]
        exact hinv2

theorem delete_inv {V : Type} {s s1 : SplitOrderedList V} {key : Nat} {r : Except Unit V}
    (hinv : SOLInv s) (h : SplitOrderedList.delete s key = some (s1, r)) : SOLInv s1 := by
  cases ha : assert_valid_key key with
  | false =>
    rw [SplitOrderedList.delete, ha, ite_not_false] at h
    exact absurd h (by simp)
  | true =>
    have hk : key < 2^63 := (assert_valid_key_iff key).mp ha
    cases hlb : lookup_bucket 64 s (key &&& wrapping_sub_one s.size) with
    | none =>
      rw [SplitOrderedList.delete, ha, ite_not_true] at h
      simp only [hlb] at h
      exact absurd h (by simp)
    | some pr =>
      obtain ⟨s2, sk⟩ := pr
      have hinv2 : SOLInv s2 :=
        lookup_bucket_inv 64 s hinv _ (bucket_key_lt hinv key) _ _ hlb
      have hskle : sk ≤ (reverse_bits key ||| 1) := sk_le_rk hinv hk hlb
      rw [delete_eval s key ha hlb] at h
      cases hrest : (s2.list.dropWhile (fun p => p.1 < sk)).dropWhile
          (fun p => p.1 < (reverse_bits key ||| 1)) with
      | nil =>
        rw [hrest] at h
        simp only [Option.some_inj, Prod.mk.injEq] at h
        obtain ⟨h1, _⟩ := h
        rw [← h1]
        exact hinv2
      | cons p t =>
        rw [hrest] at h
        replace h : (if (p.1 == (reverse_bits key ||| 1)) = true then
            match p.2 with
            | some v =>
              some (({ s2 with
                  list := deleteAt s2.list sk (reverse_bits key ||| 1),
                  count := (s2.count + (2^64 - 1)) % 2^64 } : SplitOrderedList V),
                Except.ok v)
            | none => none
          else some (s2, Except.error ())) = some (s1, r) := h
        by_cases hpk : (p.1 == (reverse_bits key ||| 1)) = true
        · rw [if_pos hpk] at h
          cases hp2 : p.2 with
          | none =>
            rw [hp2] at h
            exact absurd h (by simp)
          | some w =>
            rw [hp2] at h
            simp only [Option.some_inj, Prod.mk.injEq] at h
            obtain ⟨h1, _⟩ := h
            have hpmem : p ∈ s2.list := by
              have h2 : p ∈ (s2.list.dropWhile (fun p => p.1 < sk)).dropWhile
                  (fun p => p.1 < (reverse_bits key ||| 1)) := by
                rw [hrest]
                exact List.mem_cons_self p t
              exact (List.dropWhile_sublist _).mem ((List.dropWhile_sublist _).mem h2)
            have hpeq : p = ((reverse_bits key ||| 1), some w) := by
              have hbe := beq_iff_eq.mp hpk
              have : (p.1, p.2) = p := rfl
              rw [← this, hbe, hp2]
            have hv : ((reverse_bits key ||| 1), some w) ∈ s2.list := hpeq ▸ hpmem
            have hmemiff := deleteAt_mem hinv2.sorted hskle hv
            have hc1 : 1 ≤ s2.count := by
              rw [hinv2.count_eq]
              refine List.length_pos_of_mem (a := ((reverse_bits key ||| 1), some w)) ?_
              exact List.mem_filter.mpr ⟨hv, by simp⟩
            obtain ⟨hso, hodd, hlt⟩ := reals_facts hinv2
            have hcle : s2.count ≤ 2^63 := by
              rw [hinv2.count_eq]
              exact sorted_odd_length_le hso hodd hlt
            have hcmod : (s2.count + (2^64 - 1)) % 2^64 = s2.count - 1 := by
              have he : s2.count + (2^64 - 1) = 2^64 + (s2.count - 1) := by omega
              rw [he, Nat.add_mod_left]
              exact Nat.mod_eq_of_lt (by norm_num at hcle ⊢; omega)
            rw [← h1]
            refine ⟨deleteAt_sorted hinv2.sorted hskle hv, ?_, ?_, hinv2.bkt0,
              hinv2.bkt_lt, ?_, hinv2.size_pow, ?_⟩
            · intro q hq hqn
              exact hinv2.sent_shape q ((hmemiff q).mp hq).1 hqn
            · intro q hq hqn
              exact hinv2.real_shape q ((hmemiff q).mp hq).1 hqn
            · intro b hb
              refine (hmemiff _).mpr ⟨hinv2.bkt_sent b hb, ?_⟩
              have hblt : b < 2^63 := lt_trans (hinv2.bkt_lt b hb) (size_le_62_pow hinv2)
              have heb := reverse_bits_even hblt
              have hro := rk_odd hk
              simp only
              omega
            · show (s2.count + (2^64 - 1)) % 2^64 =
                ((deleteAt s2.list sk (reverse_bits key ||| 1)).filter
                  (fun p => p.2.isSome)).length
              have hd := deleteAt_filter_len hinv2.sorted hskle hv
              rw [hcmod, hinv2.count_eq]
              rw [hinv2.count_eq] at hc1
              omega
        · rw [if_neg hpk] at h
          simp only [Option.some_inj, Prod.mk.injEq] at h
          obtain ⟨h1, _⟩ := h
          rw [← h1]
          exact hinv2

theorem Reach_inv {V : Type} : ∀ {s : SplitOrderedList V}, Reach s → SOLInv s := by
  intro s h
  induction h with
  | init => exact SOLInv_new V
  | lkp _ he ih => exact lookup_inv ih he
  | ins _ he ih => exact insert_inv ih he
  | del _ he ih => exact delete_inv ih he

theorem insert_size_cases {V : Type} {s s1 : SplitOrderedList V} {key : Nat} {v : V}
    {r : Except V Unit} (h : SplitOrderedList.insert s key v = some (s1, r)) :
    s1.size = s.size ∨ s1.size = (s.size * 2) % 2^64 := by
  cases ha : assert_valid_key key with
  | false =>
    rw [SplitOrderedList.insert, ha, ite_not_false] at h
    exact absurd h (by simp)
  | true =>
    cases hlb : lookup_bucket 64 s (key &&& wrapping_sub_one s.size) with
    | none =>
      rw [SplitOrderedList.insert, ha, ite_not_true] at h
      simp only [hlb] at h
      exact absurd h (by simp)
    | some pr =>
      obtain ⟨s2, sk⟩ := pr
      obtain ⟨hsz, _, _, _, _, _, _, _⟩ := lookup_bucket_frame _ _ _ _ _ hlb
      rw [insert_eval s key v ha hlb] at h
      by_cases hf :
          foundAt ((s2.list.dropWhile (fun p => p.1 < sk)).dropWhile
            (fun p => p.1 < (reverse_bits key ||| 1))) (reverse_bits key ||| 1) = true
      · rw [if_pos hf] at h
        simp only [Option.some_inj, Prod.mk.injEq] at h
        obtain ⟨h1, _⟩ := h
        rw [← h1]
        exact Or.inl hsz
      · rw [if_neg hf] at h
        by_cases hc : (s2.count + 1) % 2^64 > (s.size * LOAD_FACTOR) % 2^64
        · rw [if_pos hc, if_pos hsz] at h
          simp only [Option.some_inj, Prod.mk.injEq] at h
          obtain ⟨h1, _⟩ := h
          rw [← h1]
          exact Or.inr rfl
        · rw [if_neg hc] at h
          simp only [Option.some_inj, Prod.mk.injEq] at h
          obtain ⟨h1, _⟩ := h
          rw [← h1]
          exact Or.inl hsz

theorem delete_size_eq {V : Type} {s s1 : SplitOrderedList V} {key : Nat}
    {r : Except Unit V} (h : SplitOrderedList.delete s key = some (s1, r)) :
    s1.size = s.size := by
  cases ha : assert_valid_key key with
  | false =>
    rw [SplitOrderedList.delete, ha, ite_not_false] at h
    exact absurd h (by simp)
  | true =>
    cases hlb : lookup_bucket 64 s (key &&& wrapping_sub_one s.size) with
    | none =>
      rw [SplitOrderedList.delete, ha, ite_not_true] at h
      simp only [hlb] at h
      exact absurd h (by simp)
    | some pr =>
      obtain ⟨s2, sk⟩ := pr
      obtain ⟨hsz, _, _, _, _, _, _, _⟩ := lookup_bucket_frame _ _ _ _ _ hlb
      rw [delete_eval s key ha hlb] at h
      cases hrest : (s2.list.dropWhile (fun p => p.1 < sk)).dropWhile
          (fun p => p.1 < (reverse_bits key ||| 1)) with
      | nil =>
        rw [hrest] at h
        simp only [Option.some_inj, Prod.mk.injEq] at h
        obtain ⟨h1, _⟩ := h
        rw [← h1]
        exact hsz
      | cons p t =>
        rw [hrest] at h
        replace h : (if (p.1 == (reverse_bits key ||| 1)) = true then
            match p.2 with
            | some v =>
              some (({ s2 with
                  list := deleteAt s2.list sk (reverse_bits key ||| 1),
                  count := (s2.count + (2^64 - 1)) % 2^64 } : SplitOrderedList V),
                Except.ok v)
            | none => none
          else some (s2, Except.error ())) = some (s1, r) := h
        by_cases hpk : (p.1 == (reverse_bits key ||| 1)) = true
        · rw [if_pos hpk] at h
          cases hp2 : p.2 with
          | none =>
            rw [hp2] at h
            exact absurd h (by simp)
          | some w =>
            rw [hp2] at h
            simp only [Option.some_inj, Prod.mk.injEq] at h
            obtain ⟨h1, _⟩ := h
            rw [← h1]
            exact hsz
        · rw [if_neg hpk] at h
          simp only [Option.some_inj, Prod.mk.injEq] at h
          obtain ⟨h1, _⟩ := h
          rw [← h1]
          exact hsz

/-- C6. On every state reachable by completed map operations from a fresh
map, `size` is a power of two (at least 2, the value it starts at), and no
completed operation from a reachable state ever decreases it. -/
theorem claim_C6_size_evolution {V : Type} (s : SplitOrderedList V) (h : Reach s) :
    (∃ m, 1 ≤ m ∧ s.size = 2^m) ∧
    (SplitOrderedList.new V).size = 2 ∧
    (∀ (key : Nat) (s1 : SplitOrderedList V) (r : Option V),
      SplitOrderedList.lookup s key = some (s1, r) → s.size ≤ s1.size) ∧
    (∀ (key : Nat) (v : V) (s1 : SplitOrderedList V) (r : Except V Unit),
      SplitOrderedList.insert s key v = some (s1, r) → s.size ≤ s1.size) ∧
    (∀ (key : Nat) (s1 : SplitOrderedList V) (r : Except Unit V),
      SplitOrderedList.delete s key = some (s1, r) → s.size ≤ s1.size) := by
  have hinv := Reach_inv h
  obtain ⟨m, hm1, hm2, hm⟩ := hinv.size_pow
  refine ⟨⟨m, hm1, hm⟩, rfl, ?_, ?_, ?_⟩
  · intro key s1 r he
    rw [(lookup_frame_effects s key s1 r he).1]
  · intro key v s1 r he
    rcases insert_size_cases he with h1 | h1
    · rw [h1]
    · rw [h1, hm, ← Nat.pow_succ]
      rw [Nat.mod_eq_of_lt (Nat.pow_lt_pow_right (by omega) (by omega))]
      exact Nat.pow_le_pow_right (by omega) (by omega)
  · intro key s1 r he
    rw [delete_size_eq he]

theorem claim_C6_witness :
    Reach c5state ∧ (∃ m, 1 ≤ m ∧ c5state.size = 2^m) ∧
    (SplitOrderedList.new Nat).size = 2 :=
  ⟨Reach.ins Reach.init
      (show SplitOrderedList.insert (SplitOrderedList.new Nat) 2 7 =
        some (c5state, Except.ok ()) from rfl),
   (claim_C6_size_evolution c5state (Reach.ins Reach.init
      (show SplitOrderedList.insert (SplitOrderedList.new Nat) 2 7 =
        some (c5state, Except.ok ()) from rfl))).1,
   (claim_C6_size_evolution c5state (Reach.ins Reach.init
      (show SplitOrderedList.insert (SplitOrderedList.new Nat) 2 7 =
        some (c5state, Except.ok ()) from rfl))).2.1⟩

/-- C7. In every reachable state the shared list is strictly sorted by key,
and each real entry's transformed key `reverse_bits k ||| 1` lies strictly
between its bucket's sentinel key `reverse_bits (k &&& (size - 1))` and every
sentinel key in the list that is larger than the bucket's sentinel. -/
theorem claim_C7_split_order {V : Type} (s : SplitOrderedList V) (h : Reach s) :
    List.Pairwise (fun p q => p.1 < q.1) s.list ∧
    ∀ p ∈ s.list, p.2 ≠ none → ∀ k, k < 2^63 → p.1 = (reverse_bits k ||| 1) →
      (reverse_bits (k &&& (s.size - 1)) < p.1 ∧
       ∀ q ∈ s.list, q.2 = none → reverse_bits (k &&& (s.size - 1)) < q.1 →
         p.1 < q.1) := by
  have hinv := Reach_inv h
  obtain ⟨m, hm1, hm2, hm⟩ := hinv.size_pow
  refine ⟨hinv.sorted, ?_⟩
  intro p _ _ k hk hpk
  have hand : k &&& (s.size - 1) = k % 2^m := by
    rw [hm, Nat.and_pow_two_sub_one_eq_mod]
  constructor
  · rw [hand, hpk, real_key_eq hk]
    exact Nat.lt_succ_of_le (reverse_bits_mod_le m (by omega) k)
  · intro q hq hqn hqgt
    obtain ⟨b, hb, hbe⟩ := hinv.sent_shape q hq hqn
    rw [hand] at hqgt
    rw [hbe] at hqgt ⊢
    rw [hpk]
    rw [hm] at hb
    exact sentinel_gap (by omega) hk hb hqgt

theorem claim_C7_witness :
    Reach c5state ∧
    List.Pairwise (fun p q => p.1 < q.1) c5state.list ∧
    reverse_bits (2 &&& (c5state.size - 1)) < 4611686018427387905 := by
  have hr : Reach c5state := Reach.ins Reach.init
    (show SplitOrderedList.insert (SplitOrderedList.new Nat) 2 7 =
      some (c5state, Except.ok ()) from rfl)
  have hc := claim_C7_split_order c5state hr
  exact ⟨hr, hc.1,
    (hc.2 (4611686018427387905, some 7) (by decide) (by decide) 2 (by decide)
      (by decide)).1⟩

theorem lookup_found {V : Type} {s2 : SplitOrderedList V} (hinv2 : SOLInv s2)
    {key : Nat} (hk : key < 2^63)
    (hb : s2.buckets (key &&& wrapping_sub_one s2.size) = true)
    {v : V} (hmem : ((reverse_bits key ||| 1), some v) ∈ s2.list) :
    SplitOrderedList.lookup s2 key = some (s2, some v) := by
  have hblt : key &&& wrapping_sub_one s2.size < 2^63 :=
    lt_trans (bucket_key_lt hinv2 key) (size_le_62_pow hinv2)
  have hband : (key &&& wrapping_sub_one s2.size) &&& (2^63 - 1) =
      key &&& wrapping_sub_one s2.size := (and_pow_sub_one_iff _ 63).mpr hblt
  have hlb : lookup_bucket 64 s2 (key &&& wrapping_sub_one s2.size) =
      some (s2, reverse_bits (key &&& wrapping_sub_one s2.size)) := by
    have := lookup_bucket_hit 63 s2 (key &&& wrapping_sub_one s2.size)
      (by rw [hband]; exact hb)
    rwa [hband] at this
  have hskle : reverse_bits (key &&& wrapping_sub_one s2.size) ≤
      (reverse_bits key ||| 1) := sk_le_rk hinv2 hk hlb
  rw [lookup_eval s2 key ((assert_valid_key_iff key).mpr hk) hlb]
  rw [dropWhile_dropWhile_lt _ hskle]
  obtain ⟨t, ht, _⟩ := dropWhile_eq_cons_of_mem hinv2.sorted hmem
  rw [ht]
  have hf : foundAt (((reverse_bits key ||| 1), some v) :: t)
      (reverse_bits key ||| 1) = true := by
    simp [foundAt]
  rw [if_pos hf]

/-- C2. From any reachable state whose list already maps valid key `key` to
`v1`, an insert of `v2` under `key` whose bucket lookup completes returns the
caller's value back as `Except.error v2`, leaves `count` and `size` unchanged
(the resulting state is exactly the bucket-lookup state `s2`), and a
subsequent lookup of `key` still yields `v1`. -/
theorem claim_C2_duplicate_insert {V : Type} (s s2 : SplitOrderedList V) (sk key : Nat)
    (v1 v2 : V) (h : Reach s) (hk : key < 2^63)
    (hlb : lookup_bucket 64 s (key &&& wrapping_sub_one s.size) = some (s2, sk))
    (hmem : ((reverse_bits key ||| 1), some v1) ∈ s.list) :
    SplitOrderedList.insert s key v2 = some (s2, Except.error v2) ∧
    s2.count = s.count ∧ s2.size = s.size ∧
    SplitOrderedList.lookup s2 key = some (s2, some v1) := by
  have hinv := Reach_inv h
  have hinv2 : SOLInv s2 :=
    lookup_bucket_inv 64 s hinv _ (bucket_key_lt hinv key) _ _ hlb
  obtain ⟨hsz, hct, _, hmemup, _, _, hbset, _⟩ := lookup_bucket_frame _ _ _ _ _ hlb
  have hmem2 : ((reverse_bits key ||| 1), some v1) ∈ s2.list := hmemup _ hmem
  have hskle : sk ≤ (reverse_bits key ||| 1) := sk_le_rk hinv hk hlb
  have hfound : foundAt ((s2.list.dropWhile (fun p => p.1 < sk)).dropWhile
      (fun p => p.1 < (reverse_bits key ||| 1))) (reverse_bits key ||| 1) = true := by
    rw [dropWhile_dropWhile_lt _ hskle]
    exact (foundAt_true_iff hinv2.sorted).mpr ⟨some v1, hmem2⟩
  refine ⟨?_, hct, hsz, ?_⟩
  · rw [insert_eval s key v2 ((assert_valid_key_iff key).mpr hk) hlb, if_pos hfound]
  · refine lookup_found hinv2 hk ?_ hmem2
    rw [hsz]
    have hblt : key &&& wrapping_sub_one s.size < 2^63 :=
      lt_trans (bucket_key_lt hinv key) (size_le_62_pow hinv)
    rwa [(and_pow_sub_one_iff _ 63).mpr hblt] at hbset

theorem claim_C2_witness :
    SplitOrderedList.insert c5state 2 9 = some (c5state, Except.error 9) ∧
    c5state.count = c5state.count ∧ c5state.size = c5state.size ∧
    SplitOrderedList.lookup c5state 2 = some (c5state, some 7) :=
  claim_C2_duplicate_insert c5state c5state 0 2 7 9
    (Reach.ins Reach.init
      (show SplitOrderedList.insert (SplitOrderedList.new Nat) 2 7 =
        some (c5state, Except.ok ()) from rfl))
    (by decide) (by rfl) (by decide)

theorem hit_lb {V : Type} {s : SplitOrderedList V} (hinv : SOLInv s) (key : Nat)
    (hb : s.buckets (key &&& wrapping_sub_one s.size) = true) :
    lookup_bucket 64 s (key &&& wrapping_sub_one s.size) =
      some (s, reverse_bits (key &&& wrapping_sub_one s.size)) := by
  have hblt : key &&& wrapping_sub_one s.size < 2^63 :=
    lt_trans (bucket_key_lt hinv key) (size_le_62_pow hinv)
  have hband : (key &&& wrapping_sub_one s.size) &&& (2^63 - 1) =
      key &&& wrapping_sub_one s.size := (and_pow_sub_one_iff _ 63).mpr hblt
  have h := lookup_bucket_hit 63 s (key &&& wrapping_sub_one s.size)
    (by rw [hband]; exact hb)
  rwa [hband] at h

set_option maxRecDepth 40000 in
theorem fresh_lookup_bucket (V : Type) (k : Nat) :
    ∃ s2 sk, lookup_bucket 64 (SplitOrderedList.new V)
      (k &&& wrapping_sub_one (SplitOrderedList.new V).size) = some (s2, sk) := by
  have h1 : k &&& wrapping_sub_one (SplitOrderedList.new V).size = k % 2 := by
    have h2 : wrapping_sub_one (SplitOrderedList.new V).size = 1 := by
      show wrapping_sub_one 2 = 1
      decide
    rw [h2, Nat.and_one_is_mod]
  rcases Nat.mod_two_eq_zero_or_one k with h2 | h2
  · rw [h1, h2]
    exact ⟨SplitOrderedList.new V, 0, by rfl⟩
  · rw [h1, h2]
    exact ⟨{ list := [(0, none), (9223372036854775808, none)],
             buckets := fun b => b == 1 || b == 0, size := 2, count := 0 },
           9223372036854775808, by rfl⟩

theorem fresh_rk_not_mem {V : Type} {s2 : SplitOrderedList V} (hinv2 : SOLInv s2)
    (hdown : ∀ p ∈ s2.list, p ∈ (SplitOrderedList.new V).list ∨ p.2 = none)
    {key : Nat} (hk : key < 2^63) :
    ∀ q ∈ s2.list, q.1 ≠ (reverse_bits key ||| 1) := by
  intro q hq hqe
  have hodd := rk_odd hk
  rcases hdown q hq with h1 | h1
  · have h0 : q = (0, none) := by
      simpa [SplitOrderedList.new] using h1
    rw [h0] at hqe
    have h0' : (0 : Nat) = reverse_bits key ||| 1 := hqe
    omega
  · obtain ⟨b, hb, hbe⟩ := hinv2.sent_shape q hq h1
    have hblt : b < 2^63 := lt_trans hb (size_le_62_pow hinv2)
    have heven := reverse_bits_even hblt
    rw [hbe] at hqe
    omega

theorem lookup_notfound {V : Type} {s : SplitOrderedList V} (hinv : SOLInv s)
    {key : Nat} (hk : key < 2^63) {s2 : SplitOrderedList V} {sk : Nat}
    (hlb : lookup_bucket 64 s (key &&& wrapping_sub_one s.size) = some (s2, sk))
    (hnot : ∀ q ∈ s2.list, q.1 ≠ (reverse_bits key ||| 1)) :
    SplitOrderedList.lookup s key = some (s2, none) := by
  have hinv2 : SOLInv s2 :=
    lookup_bucket_inv 64 s hinv _ (bucket_key_lt hinv key) _ _ hlb
  have hskle : sk ≤ (reverse_bits key ||| 1) := sk_le_rk hinv hk hlb
  have hnf : ¬ foundAt ((s2.list.dropWhile (fun p => p.1 < sk)).dropWhile
      (fun p => p.1 < (reverse_bits key ||| 1))) (reverse_bits key ||| 1) = true := by
    rw [dropWhile_dropWhile_lt _ hskle]
    intro hfa
    obtain ⟨w, hw⟩ := (foundAt_true_iff hinv2.sorted).mp hfa
    exact hnot _ hw rfl
  rw [lookup_eval s key ((assert_valid_key_iff key).mpr hk) hlb, if_neg hnf]

theorem insert_notfound_nogrow {V : Type} {s : SplitOrderedList V} (hinv : SOLInv s)
    {key : Nat} (hk : key < 2^63) (v : V) {s2 : SplitOrderedList V} {sk : Nat}
    (hlb : lookup_bucket 64 s (key &&& wrapping_sub_one s.size) = some (s2, sk))
    (hnot : ∀ q ∈ s2.list, q.1 ≠ (reverse_bits key ||| 1))
    (hcc : ¬ ((s2.count + 1) % 2^64 > (s.size * LOAD_FACTOR) % 2^64)) :
    SplitOrderedList.insert s key v =
      some ({ s2 with
                list := insertAt s2.list sk (reverse_bits key ||| 1) (some v),
                count := (s2.count + 1) % 2^64 }, Except.ok ()) := by
  have hinv2 : SOLInv s2 :=
    lookup_bucket_inv 64 s hinv _ (bucket_key_lt hinv key) _ _ hlb
  have hskle : sk ≤ (reverse_bits key ||| 1) := sk_le_rk hinv hk hlb
  have hnf : ¬ foundAt ((s2.list.dropWhile (fun p => p.1 < sk)).dropWhile
      (fun p => p.1 < (reverse_bits key ||| 1))) (reverse_bits key ||| 1) = true := by
    rw [dropWhile_dropWhile_lt _ hskle]
    intro hfa
    obtain ⟨w, hw⟩ := (foundAt_true_iff hinv2.sorted).mp hfa
    exact hnot _ hw rfl
  rw [insert_eval s key v ((assert_valid_key_iff key).mpr hk) hlb, if_neg hnf,
    if_neg hcc]

theorem delete_notfound {V : Type} {s : SplitOrderedList V} (hinv : SOLInv s)
    {key : Nat} (hk : key < 2^63) {s2 : SplitOrderedList V} {sk : Nat}
    (hlb : lookup_bucket 64 s (key &&& wrapping_sub_one s.size) = some (s2, sk))
    (hnot : ∀ q ∈ s2.list, q.1 ≠ (reverse_bits key ||| 1)) :
    SplitOrderedList.delete s key = some (s2, Except.error ()) := by
  have hskle : sk ≤ (reverse_bits key ||| 1) := sk_le_rk hinv hk hlb
  have h := delete_eval s key ((assert_valid_key_iff key).mpr hk) hlb
  rw [dropWhile_dropWhile_lt _ hskle] at h
  cases hrest : s2.list.dropWhile (fun p => p.1 < (reverse_bits key ||| 1)) with
  | nil =>
    rw [hrest] at h
    exact h
  | cons p t =>
    rw [hrest] at h
    replace h : SplitOrderedList.delete s key =
        (if (p.1 == (reverse_bits key ||| 1)) = true then
           match p.2 with
           | some w =>
             some ({ s2 with
                 list := deleteAt s2.list sk (reverse_bits key ||| 1),
                 count := (s2.count + (2^64 - 1)) % 2^64 }, Except.ok w)
           | none => none
         else some (s2, Except.error ())) := h
    have hp : p ∈ s2.list :=
      (List.dropWhile_sublist _).mem (hrest ▸ List.mem_cons_self p t)
    have hne : ¬ (p.1 == (reverse_bits key ||| 1)) = true := by
      intro hc
      exact hnot p hp (by simpa using hc)
    rw [if_neg hne] at h
    exact h

theorem delete_found {V : Type} {s1 : SplitOrderedList V} (hinv1 : SOLInv s1)
    {key : Nat} (hk : key < 2^63)
    (hb : s1.buckets (key &&& wrapping_sub_one s1.size) = true)
    {v : V} (hmem : ((reverse_bits key ||| 1), some v) ∈ s1.list) :
    SplitOrderedList.delete s1 key =
      some ({ s1 with
          list := deleteAt s1.list (reverse_bits (key &&& wrapping_sub_one s1.size))
            (reverse_bits key ||| 1),
          count := (s1.count + (2^64 - 1)) % 2^64 }, Except.ok v) := by
  have hlb := hit_lb hinv1 key hb
  have hskle : reverse_bits (key &&& wrapping_sub_one s1.size) ≤
      (reverse_bits key ||| 1) := sk_le_rk hinv1 hk hlb
  have h := delete_eval s1 key ((assert_valid_key_iff key).mpr hk) hlb
  rw [dropWhile_dropWhile_lt _ hskle] at h
  obtain ⟨t, ht, _⟩ := dropWhile_eq_cons_of_mem hinv1.sorted hmem
  rw [ht] at h
  replace h : SplitOrderedList.delete s1 key =
      (if (((reverse_bits key ||| 1) : Nat) == (reverse_bits key ||| 1)) = true then
         some ({ s1 with
             list := deleteAt s1.list (reverse_bits (key &&& wrapping_sub_one s1.size))
               (reverse_bits key ||| 1),
             count := (s1.count + (2^64 - 1)) % 2^64 }, Except.ok v)
       else some (s1, Except.error ())) := h
  rw [if_pos (beq_self_eq_true _)] at h
  exact h

/-- C1. Round trip on a fresh map: for every valid key `k` (below `2^63`,
hence absent from the fresh map) and value `v`, the sequential run
`insert(k, v); lookup(k); delete(k); lookup(k)` yields `Ok(())`, `Some(v)`,
`Ok(v)`, `None` in that order, and `delete(k)` on the fresh map (where `k`
is absent) yields `Err(())`. -/
theorem claim_C1_round_trip {V : Type} (k : Nat) (v : V) (hk : k < 2^63) :
    ∃ s1 s2 sd : SplitOrderedList V,
      SplitOrderedList.insert (SplitOrderedList.new V) k v = some (s1, Except.ok ()) ∧
      SplitOrderedList.lookup s1 k = some (s1, some v) ∧
      SplitOrderedList.delete s1 k = some (s2, Except.ok v) ∧
      SplitOrderedList.lookup s2 k = some (s2, none) ∧
      SplitOrderedList.delete (SplitOrderedList.new V) k =
        some (sd, Except.error ()) := by
  obtain ⟨sb, sk, hlb⟩ := fresh_lookup_bucket V k
  have hinv0 := SOLInv_new V
  have hinvb : SOLInv sb :=
    lookup_bucket_inv 64 _ hinv0 _ (bucket_key_lt hinv0 k) _ _ hlb
  obtain ⟨hsz, hct, _, _, hdown, _, hbset, _⟩ := lookup_bucket_frame _ _ _ _ _ hlb
  have hnot : ∀ q ∈ sb.list, q.1 ≠ (reverse_bits k ||| 1) :=
    fresh_rk_not_mem hinvb hdown hk
  have hcc : ¬ ((sb.count + 1) % 2^64 >
      ((SplitOrderedList.new V).size * LOAD_FACTOR) % 2^64) := by
    rw [hct]
    show ¬ ((0 + 1) % 2^64 > (2 * 2) % 2^64)
    decide
  have hins := insert_notfound_nogrow hinv0 hk v hlb hnot hcc
  set s1 : SplitOrderedList V :=
    { sb with
        list := insertAt sb.list sk (reverse_bits k ||| 1) (some v),
        count := (sb.count + 1) % 2^64 } with hs1
  have hinv1 : SOLInv s1 := insert_inv hinv0 hins
  have hb1 : s1.buckets (k &&& wrapping_sub_one s1.size) = true := by
    rw [hs1]
    show sb.buckets (k &&& wrapping_sub_one sb.size) = true
    rw [hsz]
    have hblt2 : k &&& wrapping_sub_one (SplitOrderedList.new V).size < 2^63 :=
      lt_trans (bucket_key_lt hinv0 k) (size_le_62_pow hinv0)
    rwa [(and_pow_sub_one_iff _ 63).mpr hblt2] at hbset
  have hmem1 : ((reverse_bits k ||| 1), some v) ∈ s1.list := by
    rw [hs1]
    show ((reverse_bits k ||| 1), some v) ∈ insertAt sb.list sk (reverse_bits k ||| 1) (some v)
    exact (insertAt_mem _ _ _ _ _).mpr (Or.inl rfl)
  have hlk1 := lookup_found hinv1 hk hb1 hmem1
  have hdel := delete_found hinv1 hk hb1 hmem1
  set s2 : SplitOrderedList V :=
    { s1 with
        list := deleteAt s1.list (reverse_bits (k &&& wrapping_sub_one s1.size))
          (reverse_bits k ||| 1),
        count := (s1.count + (2^64 - 1)) % 2^64 } with hs2
  have hinv2 : SOLInv s2 := delete_inv hinv1 hdel
  have hb2 : s2.buckets (k &&& wrapping_sub_one s2.size) = true := by
    rw [hs2]
    show s1.buckets (k &&& wrapping_sub_one s1.size) = true
    exact hb1
  have hskle1 : reverse_bits (k &&& wrapping_sub_one s1.size) ≤
      (reverse_bits k ||| 1) := sk_le_rk hinv1 hk (hit_lb hinv1 k hb1)
  have hnot2 : ∀ q ∈ s2.list, q.1 ≠ (reverse_bits k ||| 1) := by
    intro q hq
    rw [hs2] at hq
    have hq' : q ∈ deleteAt s1.list (reverse_bits (k &&& wrapping_sub_one s1.size))
        (reverse_bits k ||| 1) := hq
    exact ((deleteAt_mem hinv1.sorted hskle1 hmem1 q).mp hq').2
  have hlk2 := lookup_notfound hinv2 hk (hit_lb hinv2 k hb2) hnot2
  have hdel0 := delete_notfound hinv0 hk hlb hnot
  exact ⟨s1, s2, sb, hins, hlk1, hdel, hlk2, hdel0⟩

theorem claim_C1_witness :
    (5 : Nat) < 2^63 ∧
    ∃ s1 s2 sd : SplitOrderedList Nat,
      SplitOrderedList.insert (SplitOrderedList.new Nat) 5 42 = some (s1, Except.ok ()) ∧
      SplitOrderedList.lookup s1 5 = some (s1, some 42) ∧
      SplitOrderedList.delete s1 5 = some (s2, Except.ok 42) ∧
      SplitOrderedList.lookup s2 5 = some (s2, none) ∧
      SplitOrderedList.delete (SplitOrderedList.new Nat) 5 =
        some (sd, Except.error ()) :=
  ⟨by decide, claim_C1_round_trip 5 42 (by decide)⟩
